import Mathlib

/-!
Verification development for the Doc2LMS conversion pipeline
(QuestionParsing.gs, AnswerKeyParsing.gs, QTIExport.gs, Utilities.gs,
Constants.gs, Code.gs).

Text is modelled as `List Char`; every JavaScript regular expression used
by the source is embedded as an explicit, executable character-list
matcher; the stateful parsing loops are embedded as explicit folds over
the document's element list.  Freshly minted image ids
(`Utilities.getUuid()`) are modelled by an explicit id supply
`g : Nat -> List Char`, the k-th minted id being `g k`.
-/

namespace Doc2LMS

/-- Text is modelled as a list of characters (a JavaScript string). -/
abbrev Str := List Char

/-- Whitespace class of the JavaScript regex token in ASCII range. -/
def isWs (c : Char) : Bool :=
  c = ' ' || c = '\t' || c = '\n' || c = '\r' || c = '\x0b' || c = '\x0c'

/-- ASCII decimal digit, the regex d class restricted to ASCII. -/
def isDigit (c : Char) : Bool := '0' ≤ c && c ≤ '9'

/-- ASCII letter, the regex class A-Za-z. -/
def isAsciiLetter (c : Char) : Bool :=
  ('A' ≤ c && c ≤ 'Z') || ('a' ≤ c && c ≤ 'z')

/-- Word character for regex word boundaries: A-Za-z0-9_. -/
def isWordChar (c : Char) : Bool := isAsciiLetter c || isDigit c || c = '_'

/-- Alphanumeric ASCII character. -/
def isAlnum (c : Char) : Bool := isAsciiLetter c || isDigit c

/-- Model of JavaScript String.prototype.trim (whitespace at both ends). -/
def jsTrim (l : Str) : Str :=
  ((l.dropWhile isWs).reverse.dropWhile isWs).reverse

/-- Numeric value of a digit run, as computed by parseInt(s, 10). -/
def natOfDigits (ds : Str) : Nat :=
  ds.foldl (fun n c => n * 10 + (c.toNat - '0'.toNat)) 0

/-- Check whether the pattern is a prefix of the list (character-exact). -/
def startsWithStr : Str → Str → Bool
  | [], _ => true
  | _ :: _, [] => false
  | c :: p, d :: l => c = d && startsWithStr p l

/-- Model of JavaScript String.prototype.includes: substring occurrence. -/
def containsSub (p : Str) : Str → Bool
  | [] => startsWithStr p []
  | l@(_ :: r) => startsWithStr p l || containsSub p r

/-- Case-insensitive strip of a literal pattern from the front of a
string; returns the remainder when the pattern (compared through
Char.toUpper, the i flag) is a prefix. -/
def stripCI : Str → Str → Option Str
  | [], l => some l
  | _ :: _, [] => none
  | c :: p, d :: l => if c.toUpper = d.toUpper then stripCI p l else none

/-- Model of the global replacement of a whitespace run by one space
(the source's replace of the regex s-plus by a single space). -/
def collapseWs : Str → Str
  | [] => []
  | [c] => [if isWs c then ' ' else c]
  | c :: d :: r =>
    if isWs c && isWs d then collapseWs (d :: r)
    else (if isWs c then ' ' else c) :: collapseWs (d :: r)

/-- Zero-width characters removed by cleanAnswerKeyText
(U+200B to U+200D and U+FEFF). -/
def isZeroWidth (c : Char) : Bool :=
  (0x200B ≤ c.toNat && c.toNat ≤ 0x200D) || c.toNat = 0xFEFF

/-- Model of JavaScript split on the character class comma/semicolon:
empty segments are preserved and the result is never empty. -/
def splitCommaSemi : Str → List Str
  | [] => [[]]
  | c :: r =>
    if c = ',' || c = ';' then [] :: splitCommaSemi r
    else
      match splitCommaSemi r with
      | t :: ts => (c :: t) :: ts
      | [] => [[c]]

/-- Maximal non-whitespace runs of a string: the composite of the
source's split on a whitespace run followed by trim and dropping empty
segments (used by the ordering decoder). -/
def wsTokens : Str → List Str
  | [] => []
  | c :: r =>
    if isWs c then wsTokens r
    else
      match wsTokens r with
      | t :: ts =>
        match r with
        | d :: _ => if isWs d then [c] :: t :: ts else (c :: t) :: ts
        | [] => [c] :: ts
      | [] => [[c]]

/-! ## Embedded regular expressions

Each matcher below embeds one concrete regex of the source.  The greedy
quantifiers involved never need backtracking here (a shortened digit or
letter run would leave a digit or letter where the next class expects
whitespace or a separator), so the matchers are deterministic scans. -/

/-- Regex of QuestionParsing.parseQuestions line 191 (also the first
pattern of isAnswerKeyHeader): case-insensitive, whole line,
ANSWER then whitespace then KEY then optional colon. -/
def answerKeyQP (l : Str) : Bool :=
  match stripCI "ANSWER".data (l.dropWhile isWs) with
  | none => false
  | some l2 =>
    let ws := l2.takeWhile isWs
    if ws.isEmpty then false
    else
      match stripCI "KEY".data (l2.dropWhile isWs) with
      | none => false
      | some l4 =>
        let l5 := l4.dropWhile isWs
        let l6 := match l5 with
          | ':' :: r => r
          | _ => l5
        (l6.dropWhile isWs).isEmpty

/-- Whole-line pattern WORD then optional colon, case-insensitive, with
whitespace padding: the shape of the ANSWERS and KEY alternatives of
isAnswerKeyHeader. -/
def wordColonLine (w : String) (l : Str) : Bool :=
  match stripCI w.data (l.dropWhile isWs) with
  | none => false
  | some l2 =>
    let l3 := l2.dropWhile isWs
    let l4 := match l3 with
      | ':' :: r => r
      | _ => l3
    (l4.dropWhile isWs).isEmpty

/-- AnswerKeyParsing.isAnswerKeyHeader: the text (empty is falsy and
rejected) is trimmed and tested against the three header patterns. -/
def isAnswerKeyHeader (l : Str) : Bool :=
  if l.isEmpty then false
  else
    let t := jsTrim l
    answerKeyQP t || wordColonLine "ANSWERS" t || wordColonLine "KEY" t

/-- Regex of parseQuestions line 217: leading whitespace, a digit run,
whitespace, one of period, closing parenthesis or dash, at least one
whitespace character, then the captured remainder.  Returns the parsed
question number and the raw remainder capture. -/
def questionStartMatch (l : Str) : Option (Nat × Str) :=
  let l1 := l.dropWhile isWs
  let ds := l1.takeWhile isDigit
  if ds.isEmpty then none
  else
    let l2 := (l1.dropWhile isDigit).dropWhile isWs
    match l2 with
    | c :: l3 =>
      if c = '.' || c = ')' || c = '-' then
        let ws := l3.takeWhile isWs
        if ws.isEmpty then none else some (natOfDigits ds, l3.dropWhile isWs)
      else none
    | [] => none

/-- Regex of parseQuestions line 272: an option marker, either a letter
followed by period or closing parenthesis, or a parenthesized letter,
then at least one whitespace character and the captured remainder.
Returns the uppercased option letter and the raw remainder capture. -/
def optionMatch (l : Str) : Option (Char × Str) :=
  match l.dropWhile isWs with
  | [] => none
  | c :: l2 =>
    if isAsciiLetter c then
      match l2.dropWhile isWs with
      | d :: l3 =>
        if d = '.' || d = ')' then
          let ws := l3.takeWhile isWs
          if ws.isEmpty then none else some (c.toUpper, l3.dropWhile isWs)
        else none
      | [] => none
    else if c = '(' then
      match l2.dropWhile isWs with
      | d :: l3 =>
        if isAsciiLetter d then
          match l3.dropWhile isWs with
          | ')' :: l4 =>
            let ws := l4.takeWhile isWs
            if ws.isEmpty then none else some (d.toUpper, l4.dropWhile isWs)
          | _ => none
        else none
      | [] => none
    else none

/-- Regex of parseAnswerLine line 65: a digit run at the start, optional
whitespace, one of period, closing parenthesis or dash, optional
whitespace, then the captured remainder. -/
def answerLineMatch (l : Str) : Option (Nat × Str) :=
  let ds := l.takeWhile isDigit
  if ds.isEmpty then none
  else
    match (l.dropWhile isDigit).dropWhile isWs with
    | c :: l3 =>
      if c = '.' || c = ')' || c = '-' then some (natOfDigits ds, l3.dropWhile isWs)
      else none
    | [] => none

/-- Regex of parseAnswerLine line 90: the first character must be an
ASCII letter followed by a word boundary (next character absent or not a
word character). -/
def mcFirstLetter (l : Str) : Option Char :=
  match l with
  | [] => none
  | c :: rest =>
    if isAsciiLetter c then
      match rest with
      | [] => some c
      | d :: _ => if isWordChar d then none else some c
    else none

/-- One prefix-stripping replacement of cleanAnswerKeyText: the
case-insensitive pattern WORD, optional whitespace, optional colon or
dash, optional whitespace, removed from the front when present. -/
def stripAKLead (w : String) (l : Str) : Str :=
  match stripCI w.data l with
  | none => l
  | some l1 =>
    let l2 := l1.dropWhile isWs
    let l3 := match l2 with
      | c :: r => if c = ':' || c = '-' then r else l2
      | [] => l2
    l3.dropWhile isWs

/-- AnswerKeyParsing.cleanAnswerKeyText: trim, strip an Answer prefix,
strip a Key prefix, collapse whitespace runs, remove zero-width
characters. -/
def cleanAnswerKeyText (l : Str) : Str :=
  (collapseWs (stripAKLead "KEY" (stripAKLead "ANSWER" (jsTrim l)))).filter
    (fun c => !isZeroWidth c)

/-- One premise/response pair of a matching answer. -/
structure MatchPair where
  premise : Str
  response : Str
deriving DecidableEq, Repr

/-- Regex of parseAnswerLine line 144 on one trimmed pair token: a
letter run, optional whitespace, dash or equals, optional whitespace,
then a non-whitespace run (trailing text is ignored by the regex). -/
def pairTokenMatch (tok : Str) : Option MatchPair :=
  let t := jsTrim tok
  let ls := t.takeWhile isAsciiLetter
  if ls.isEmpty then none
  else
    match (t.dropWhile isAsciiLetter).dropWhile isWs with
    | c :: r3 =>
      if c = '-' || c = '=' then
        let resp := (r3.dropWhile isWs).takeWhile (fun c => !isWs c)
        if resp.isEmpty then none else some ⟨jsTrim ls, jsTrim resp⟩
      else none
    | [] => none

/-- Search for the first occurrence of a word with regex word boundaries
on both sides; prev is the character immediately before the current
position.  Returns the remainder after the occurrence. -/
def findBounded (w : Str) : Option Char → Str → Option Str
  | _, [] => none
  | prev, l@(c :: rest) =>
    let boundaryBefore := match prev with
      | none => true
      | some p => !isWordChar p
    if boundaryBefore && startsWithStr w l then
      let after := l.drop w.length
      match after with
      | [] => some after
      | d :: _ => if isWordChar d then findBounded w (some c) rest else some after
    else findBounded w (some c) rest

/-- Regex b TRUE b dot-star b FALSE b: a bounded TRUE occurrence with a
bounded FALSE occurrence somewhere after it.  The regex engine starts at
the first bounded TRUE, and any bounded FALSE after a later TRUE also
lies after the first, so scanning from the first occurrence is exact. -/
def trueFalseRegex (u : Str) : Bool :=
  match findBounded "TRUE".data none u with
  | none => false
  | some rest => (findBounded "FALSE".data (some 'E') rest).isSome

/-! ## Data model (Constants.gs, QuestionParsing.gs) -/

/-- Closed enumeration of question types (Constants.gs QUESTION_TYPES). -/
inductive QType where
  | MULTIPLE_CHOICE_SINGLE
  | MULTIPLE_CHOICE_MULTI
  | TRUE_FALSE
  | FILL_IN_BLANK_TEXT
  | FILL_IN_BLANK_NUMERIC
  | ESSAY
  | SHORT_ANSWER
  | MATCHING
  | ORDERING
deriving DecidableEq, Repr

/-- Image metadata as carried through parsing and export: the minted id
and the filename generated for the resources folder.  Blob bytes,
dimensions and mime type play no role in the verified logic; the file
extension defaults to png as in getExtensionFromMimeType. -/
structure ImageMeta where
  id : Str
  filename : Str
deriving DecidableEq, Repr

/-- One parsed option: uppercased letter, text after the marker (with
image placeholders), and the images whose placeholder occurs in that
text. -/
structure OptionEntry where
  letter : Char
  text : Str
  images : List ImageMeta
deriving DecidableEq, Repr

/-- One question draft/finalized question of parseQuestions. -/
structure Question where
  number : Nat
  qtype : QType
  text : Str
  options : List OptionEntry
  images : List ImageMeta
  hasImages : Bool
deriving DecidableEq, Repr

/-- Keyword test of inferQuestionType line 118: bounded TRUE before
bounded FALSE on the uppercased text, or the literal TRUE/FALSE. -/
def tfKeyword (text : Str) : Bool :=
  let u := text.map Char.toUpper
  trueFalseRegex u || containsSub "TRUE/FALSE".data u

/-- Keyword test of inferQuestionType line 121: bounded MATCHING on the
uppercased text, or the text starts (after whitespace) with MATCH
followed by whitespace, case-insensitively. -/
def matchingKeyword (text : Str) : Bool :=
  let u := text.map Char.toUpper
  (findBounded "MATCHING".data none u).isSome ||
    (match stripCI "MATCH".data (text.dropWhile isWs) with
     | some (d :: _) => isWs d
     | _ => false)

/-- Keyword test of inferQuestionType line 124: bounded ORDERING, ORDER
or SEQUENCE on the uppercased text. -/
def orderingKeyword (text : Str) : Bool :=
  let u := text.map Char.toUpper
  (findBounded "ORDERING".data none u).isSome ||
    (findBounded "ORDER".data none u).isSome ||
    (findBounded "SEQUENCE".data none u).isSome

/-- Underscore test of inferQuestionType line 127: the text contains
three consecutive underscores. -/
def underscoreKeyword (text : Str) : Bool :=
  containsSub "___".data text

/-- QuestionParsing.inferQuestionType: keyword rules first, then the
structural check on the options, then the SHORT_ANSWER default.  The
list-item arguments of the source are unused by its logic and omitted. -/
def inferQuestionType (text : Str) (initialOptions : List OptionEntry) : QType :=
  if tfKeyword text then .TRUE_FALSE
  else if matchingKeyword text then .MATCHING
  else if orderingKeyword text then .ORDERING
  else if underscoreKeyword text then .FILL_IN_BLANK_TEXT
  else if initialOptions.length > 0 then
    let optionLetters := initialOptions.map (·.letter)
    if optionLetters.contains 'T' && optionLetters.contains 'F' then .TRUE_FALSE
    else .MULTIPLE_CHOICE_SINGLE
  else .SHORT_ANSWER

/-! ## Block stream and processElement -/

/-- One child of a document element: a text run or an inline image. -/
inductive Part where
  | txt (s : Str)
  | img
deriving DecidableEq, Repr

/-- One document element (paragraph or list item): an ordered sequence
of text runs and inline images. -/
structure Elem where
  parts : List Part
deriving DecidableEq, Repr

/-- Image placeholder token spliced into the text stream by
processElement. -/
def placeholder (id : Str) : Str := "[IMG:".data ++ id ++ "]".data

/-- Concatenate an element's children into the raw text, splicing a
placeholder for each inline image; ids are drawn from the supply g at
consecutive counter values.  Returns the raw text, the minted ids in
order, and the advanced counter. -/
def processParts (g : Nat → Str) : List Part → Nat → Str × List Str × Nat
  | [], ctr => ([], [], ctr)
  | .txt s :: r, ctr =>
    let (t, ids, c2) := processParts g r ctr
    (s ++ t, ids, c2)
  | .img :: r, ctr =>
    let id := g ctr
    let (t, ids, c2) := processParts g r (ctr + 1)
    (placeholder id ++ t, id :: ids, c2)

/-- QuestionParsing.processElement: raw children text with placeholders,
trimmed; the image ids minted for this element; the advanced counter. -/
def processElement (g : Nat → Str) (e : Elem) (ctr : Nat) : Str × List Str × Nat :=
  let (t, ids, c2) := processParts g e.parts ctr
  (jsTrim t, ids, c2)

/-- Utilities.generateImageFilename: q number, context, id, extension
png; non-alphanumeric/underscore characters replaced by underscores and
underscore runs collapsed.  The context string is elem<i>_img<first four
id characters> as built at parseQuestions line 205. -/
def generateImageFilename (questionNumber : Nat) (context : Str) (imageId : Str) : Str :=
  let baseName := "q".data ++ (toString questionNumber).data ++ "_".data ++ context
    ++ "_".data ++ imageId
  let sanitized := collapseUnderscores (baseName.map
    (fun c => if isAsciiLetter c || isDigit c || c = '_' then c else '_'))
  sanitized ++ ".png".data
where
  /-- Replacement of underscore runs by a single underscore. -/
  collapseUnderscores : Str → Str
    | [] => []
    | [c] => [c]
    | c :: d :: r =>
      if c = '_' && d = '_' then collapseUnderscores (d :: r)
      else c :: collapseUnderscores (d :: r)

/-- Filename context hint of parseQuestions line 205 for the image with
the given id found in element i. -/
def imageContext (i : Nat) (id : Str) : Str :=
  "elem".data ++ (toString i).data ++ "_img".data ++ id.take 4

/-! ## Structural parser (QuestionParsing.parseQuestions) -/

/-- Loop state of parseQuestions: finalized questions, current draft,
images accumulated since the current question started, all images, the
id counter, and the shared question-type map keyed by number. -/
structure PQState where
  questions : List Question
  cur : Option Question
  accImgs : List ImageMeta
  allImages : List ImageMeta
  ctr : Nat
  typeMap : Nat → Option QType

/-- Finalization of a draft (parseQuestions lines 226 to 236 and 357 to
368): attach the accumulated images whose placeholder occurs in the stem
or in an option text, recompute hasImages, and append the question. -/
def finalizeDraft (q : Question) (acc : List ImageMeta) : Question :=
  let imgs := acc.filter (fun im =>
    containsSub (placeholder im.id) q.text ||
      q.options.any (fun o => containsSub (placeholder im.id) o.text))
  { q with images := imgs, hasImages := !imgs.isEmpty }

/-- Push the finalized current draft, if any, onto the question list. -/
def pqFinish (s : PQState) : PQState :=
  match s.cur with
  | some q => { s with questions := s.questions ++ [finalizeDraft q s.accImgs], cur := none }
  | none => s

/-- Stem continuation of parseQuestions lines 329 to 335: append the
element text, inserting one space unless the stem is empty or already
ends in whitespace or the new text opens with closing punctuation. -/
def appendStem (stem : Str) (text : Str) : Str :=
  let needsSpace := !stem.isEmpty &&
    !(match stem.getLast? with
      | some c => isWs c
      | none => false) &&
    !(match text.head? with
      | some c => c = '.' || c = ',' || c = ';' || c = ':' || c = '!' || c = '?'
      | none => false)
  stem ++ (if needsSpace then [' '] else []) ++ text

/-- Question types that block the option-driven re-inference
(parseQuestions lines 294 to 298). -/
def reinferBlocked (t : QType) : Bool :=
  t = .MULTIPLE_CHOICE_SINGLE || t = .MULTIPLE_CHOICE_MULTI || t = .TRUE_FALSE ||
    t = .MATCHING || t = .ORDERING

/-- One iteration of the parseQuestions loop on element e at index i
(the index enters generated image filenames); none signals the answer
key header, which breaks the loop. -/
def pqStep (g : Nat → Str) (i : Nat) (e : Elem) (s : PQState) : Option PQState :=
  let (text, ids, ctr2) := processElement g e s.ctr
  if text.isEmpty && ids.isEmpty then some s
  else if answerKeyQP text then none
  else
    some <|
      let metas := ids.map (fun id =>
        ⟨id, generateImageFilename (match s.cur with
            | some q => q.number
            | none => 0) (imageContext i id) id⟩)
      let s1 : PQState := { s with accImgs := s.accImgs ++ metas,
                                   allImages := s.allImages ++ metas, ctr := ctr2 }
      match questionStartMatch text with
      | some (n, restRaw) =>
        let textStart := jsTrim restRaw
        let s2 := pqFinish s1
        let acc2 := s1.accImgs.filter (fun im => containsSub (placeholder im.id) text)
        let ty := inferQuestionType textStart []
        let q : Question :=
          { number := n, qtype := ty, text := textStart, options := [],
            images := [], hasImages := !acc2.isEmpty }
        { s2 with cur := some q, accImgs := acc2,
                  typeMap := fun k => if k = n then some ty else s2.typeMap k }
      | none =>
        match s1.cur with
        | some q =>
          match optionMatch text with
          | some (letter, optRaw) =>
            let optText := jsTrim optRaw
            let optImgs := s1.accImgs.filter
              (fun im => containsSub (placeholder im.id) optText)
            let opts2 := q.options ++ [⟨letter, optText, optImgs⟩]
            let (ty2, tm2) :=
              if !reinferBlocked q.qtype then
                let currentLetters := opts2.map (·.letter)
                let newTy :=
                  if currentLetters.contains 'T' && currentLetters.contains 'F' then
                    QType.TRUE_FALSE
                  else QType.MULTIPLE_CHOICE_SINGLE
                (newTy, fun k => if k = q.number then some newTy else s1.typeMap k)
              else (q.qtype, s1.typeMap)
            let q2 := { q with options := opts2, qtype := ty2,
                               hasImages := q.hasImages || !ids.isEmpty }
            { s1 with cur := some q2, typeMap := tm2 }
          | none =>
            let q2 := if !text.isEmpty then { q with text := appendStem q.text text } else q
            let q3 := { q2 with hasImages := q2.hasImages || !ids.isEmpty }
            { s1 with cur := some q3 }
        | none => s1

/-- Main loop of parseQuestions: iterate the step over the elements and
finalize the last draft when the elements are exhausted or the step
signalled the answer-key boundary. -/
def pqLoop (g : Nat → Str) : Nat → List Elem → PQState → PQState
  | _, [], s => pqFinish s
  | i, e :: rest, s =>
    match pqStep g i e s with
    | none => pqFinish s
    | some s2 => pqLoop g (i + 1) rest s2

/-- Result of the structural parser: the question list, the master image
list, and the question-type map shared with the answer-key parser. -/
structure PQResult where
  questions : List Question
  allImages : List ImageMeta
  typeMap : Nat → Option QType

/-- QuestionParsing.parseQuestions over a document element stream with
the id supply g; the global questionTypes map starts cleared. -/
def parseQuestionsModel (g : Nat → Str) (elems : List Elem) : PQResult :=
  let s := pqLoop g 0 elems ⟨[], none, [], [], 0, fun _ => none⟩
  ⟨s.questions, s.allImages, s.typeMap⟩

/-- Text-only block (a paragraph without images). -/
def tb (s : String) : Elem := ⟨[.txt s.data]⟩

/-- Id supply for runs whose documents contain no images (the supply is
then never consulted). -/
def noIds : Nat → Str := fun _ => []

/-- Structural parse of a list of plain text blocks. -/
def parseQuestionsText (blocks : List String) : PQResult :=
  parseQuestionsModel noIds (blocks.map tb)

/-! ## Answer records and the answer-key parser (AnswerKeyParsing.gs) -/

/-- Model of JavaScript parseFloat on the answer payload: optional
whitespace and sign, digits with an optional fraction (at least one
digit overall), an optional exponent, trailing text ignored; none models
NaN.  The value is represented exactly as a rational. -/
def parseFloatModel (l : Str) : Option ℚ :=
  let l1 := l.dropWhile isWs
  let (sign, l2) : ℚ × Str := match l1 with
    | '-' :: r => (-1, r)
    | '+' :: r => (1, r)
    | _ => (1, l1)
  let ip := l2.takeWhile isDigit
  let l3 := l2.dropWhile isDigit
  let (fp, l4) : Str × Str := match l3 with
    | '.' :: r => (r.takeWhile isDigit, r.dropWhile isDigit)
    | _ => ([], l3)
  if ip.isEmpty && fp.isEmpty then none
  else
    let mant : ℚ := (natOfDigits ip : ℚ) + (natOfDigits fp : ℚ) / ((10 : ℚ) ^ fp.length)
    let expo : Int := match l4 with
      | 'e' :: r | 'E' :: r =>
        let (es, r2) : Int × Str := match r with
          | '-' :: r2 => (-1, r2)
          | '+' :: r2 => (1, r2)
          | _ => (1, r)
        let ed := r2.takeWhile isDigit
        if ed.isEmpty then 0 else es * natOfDigits ed
      | _ => 0
    some (sign * mant * (10 : ℚ) ^ expo)

/-- Tagged union of decoded answers, one shape per question type family
(parseAnswerLine's parsedAnswerData). -/
inductive AnswerData where
  | letter (c : Char)
  | letters (ls : List Char)
  | texts (ts : List Str)
  | numeric (x : ℚ)
  | pairs (ps : List MatchPair)
  | ordering (seq : List Str)
deriving DecidableEq, Repr

/-- Insertion of a character into a sorted list (ascending). -/
def insertSorted (c : Char) : List Char → List Char
  | [] => [c]
  | d :: r => if c ≤ d then c :: d :: r else d :: insertSorted c r

/-- Ascending sort of a character list (the JavaScript array sort on
single-letter strings). -/
def sortChars (l : List Char) : List Char := l.foldr insertSorted []

/-- Matching branch of parseAnswerLine (lines 138 to 159): split the
payload on comma/semicolon, push each token that matches the pair regex,
skip the rest, and reject the line when no pair was parsed. -/
def matchingAnswerOfPayload (answerText : Str) : Option (List MatchPair) :=
  let pairs := splitCommaSemi answerText
  let parsed := pairs.foldl (fun acc p =>
    match pairTokenMatch p with
    | some pr => acc ++ [pr]
    | none => acc) []
  if parsed.isEmpty then none else some parsed

/-- Ordering branch of parseAnswerLine (lines 161 to 177): split on
comma/semicolon when one is present, otherwise on whitespace runs; trim
and drop empty items. -/
def orderingTokens (answerText : Str) : List Str :=
  if answerText.contains ',' || answerText.contains ';' then
    ((splitCommaSemi answerText).map jsTrim).filter (fun t => !t.isEmpty)
  else wsTokens answerText

/-- AnswerKeyParsing.parseAnswerLine with the question-type map passed
explicitly (the source reads the shared questionTypes map written by
parseQuestions). -/
def parseAnswerLine (tm : Nat → Option QType) (lineText : Str) : Option (Nat × AnswerData) :=
  if (jsTrim lineText).isEmpty then none
  else
    let cleanedText := cleanAnswerKeyText lineText
    match answerLineMatch cleanedText with
    | none => none
    | some (questionNumber, m2) =>
      let answerText := jsTrim m2
      match tm questionNumber with
      | none => none
      | some ty =>
        match ty with
        | .MULTIPLE_CHOICE_SINGLE | .TRUE_FALSE =>
          match mcFirstLetter answerText with
          | some c => some (questionNumber, .letter c.toUpper)
          | none => none
        | .MULTIPLE_CHOICE_MULTI =>
          let ls := (answerText.map Char.toUpper).filter isAsciiLetter
          if ls.isEmpty then none
          else some (questionNumber, .letters (sortChars ls.dedup))
        | .FILL_IN_BLANK_TEXT | .SHORT_ANSWER | .ESSAY =>
          some (questionNumber,
            .texts (((splitCommaSemi answerText).map jsTrim).filter (fun t => !t.isEmpty)))
        | .FILL_IN_BLANK_NUMERIC =>
          match parseFloatModel answerText with
          | some x => some (questionNumber, .numeric x)
          | none => none
        | .MATCHING =>
          match matchingAnswerOfPayload answerText with
          | some ps => some (questionNumber, .pairs ps)
          | none => none
        | .ORDERING =>
          let seq := orderingTokens answerText
          if seq.isEmpty then none else some (questionNumber, .ordering seq)

/-- Answer-key parser state: whether the header was found, the answer
map, and the question numbers for which an overwrite warning was
emitted. -/
structure AKState where
  found : Bool
  answers : Nat → Option AnswerData
  warns : List Nat

/-- Text content of an element as read by parseAnswerKey
(getText of the paragraph or list item, trimmed): the concatenation of
the text runs, without image placeholders. -/
def akTextOfElem (e : Elem) : Str :=
  jsTrim (e.parts.foldr (fun p acc =>
    match p with
    | .txt s => s ++ acc
    | .img => acc) [])

/-- One iteration of parseAnswerKey (lines 211 to 254): before the
header only the header test runs; after it, nonempty lines are parsed
and stored in the map, warning on overwrite (last occurrence wins). -/
def akStep (tm : Nat → Option QType) (s : AKState) (t : Str) : AKState :=
  if !s.found then
    if isAnswerKeyHeader t then { s with found := true } else s
  else if !t.isEmpty then
    match parseAnswerLine tm t with
    | some (n, a) =>
      { s with
        answers := fun k => if k = n then some a else s.answers k,
        warns := if (s.answers n).isSome then s.warns ++ [n] else s.warns }
    | none => s
  else s

/-- AnswerKeyParsing.parseAnswerKey over the document elements, with the
question-type map passed explicitly. -/
def parseAnswerKeyModel (tm : Nat → Option QType) (elems : List Elem) : AKState :=
  (elems.map akTextOfElem).foldl (akStep tm) ⟨false, fun _ => none, []⟩

/-! ## Combiner (Code.gs combineQuestionsAndAnswers) -/

/-- Canonical intermediate model: a finalized question together with its
answer record, or none when the key had no entry for its number. -/
structure IR extends Question where
  correctAnswer : Option AnswerData
deriving DecidableEq, Repr

/-- Code.combineQuestionsAndAnswers: attach the decoded answer for each
question number, null when absent. -/
def combineQuestionsAndAnswers (questions : List Question)
    (answerMap : Nat → Option AnswerData) : List IR :=
  questions.map (fun q => { toQuestion := q, correctAnswer := answerMap q.number })

/-! ## Utilities.gs sanitizeHtml and image placeholder rewriting -/

/-- Global replacement of one character by another (the shape of each
chained String.replace in sanitizeHtml). -/
def replaceAllChar (c r : Char) (t : Str) : Str := t.map (fun d => if d = c then r else d)

/-- Utilities.sanitizeHtml: four chained global replacements; each
replacement literal in the source is the replaced character itself. -/
def sanitizeHtml (text : Str) : Str :=
  replaceAllChar '"' '"'
    (replaceAllChar '>' '>'
      (replaceAllChar '<' '<'
        (replaceAllChar '&' '&' text)))

/-- Read one placeholder at the head of the text: bracket, IMG, colon, a
nonempty run without a closing bracket, closing bracket.  Returns the id
and the remainder after the match. -/
def readPlaceholder (l : Str) : Option (Str × Str) :=
  if startsWithStr "[IMG:".data l then
    match (l.drop 5).dropWhile (fun c => c ≠ ']'), (l.drop 5).takeWhile (fun c => c ≠ ']') with
    | ']' :: r2, id => if id.isEmpty then none else some (id, r2)
    | _, _ => none
  else none

/-- Ids of the placeholder occurrences in a text, in order, as produced
by the global regex of replaceImagePlaceholdersWithHtml; at a position
where no well-formed placeholder starts, the scan advances one
character.  Termination: a successful read consumes at least the opening
bracket, so the remainder is strictly shorter. -/
def findPlaceholderIds (l : Str) : List Str :=
  match l with
  | [] => []
  | c :: r =>
    match h : readPlaceholder (c :: r) with
    | some (id, r2) =>
      let _ := c
      id :: findPlaceholderIds r2
    | none => findPlaceholderIds r
termination_by l.length
decreasing_by
  · have hdw : ∀ (p : Char → Bool) (t : Str), (t.dropWhile p).length ≤ t.length := by
      intro p t
      induction t with
      | nil => simp
      | cons a u ih =>
        simp only [List.dropWhile]
        split
        · exact ih.trans (by simp)
        · simp
    unfold readPlaceholder at h
    split at h
    · split at h
      · split at h
        · exact absurd h (by simp)
        · cases h
          have h1 : (((c :: r).drop 5).dropWhile (fun x => decide (x ≠ ']'))).length ≤
              ((c :: r).drop 5).length := hdw _ _
          simp_all
          omega
      · exact absurd h (by simp)
    · exact absurd h (by simp)
  · simp

/-- First-occurrence string replacement (JavaScript String.replace with
a plain string pattern). -/
def replaceFirst (pat rep : Str) : Str → Str
  | [] => if startsWithStr pat [] then rep else []
  | l@(c :: r) =>
    if startsWithStr pat l then rep ++ l.drop pat.length
    else c :: replaceFirst pat rep r

/-- Lookup into the image map of replaceImagePlaceholdersWithHtml; the
map is built by forEach set, so a later entry with the same id wins. -/
def imageMetaLookup (imgs : List ImageMeta) (id : Str) : Option ImageMeta :=
  imgs.foldl (fun acc im => if im.id = id then some im else acc) none

/-- Image tag emitted for one resolved placeholder; width and height are
not modelled and hence omitted, as the source omits them when absent. -/
def imgTag (im : ImageMeta) : Str :=
  "<img src=\"".data ++ sanitizeHtml ("resources/".data ++ im.filename)
    ++ "\" alt=\"\" />".data

/-- Utilities.replaceImagePlaceholdersWithHtml: for each placeholder
occurrence of the original text, in order, replace its first occurrence
in the processed text by an image tag when the id resolves. -/
def replaceImagePlaceholdersWithHtml (text : Str) (questionImages : List ImageMeta) : Str :=
  if text.isEmpty || questionImages.isEmpty then text
  else
    (findPlaceholderIds text).foldl (fun processed id =>
      match imageMetaLookup questionImages id with
      | some im => replaceFirst (placeholder id) (imgTag im) processed
      | none => processed) text

/-! ## QTI 1.2 single-choice backend (QTIExport.gs) -/

/-- One response-processing condition of the generated item: negated
wraps the test in a not element, varequal carries the tested choice
identifier (none encodes the catch-all other element), and score is the
value assigned to SCORE. -/
structure RespCond where
  negated : Bool
  varequal : Option Str
  score : Nat
deriving DecidableEq, Repr

/-- One rendered choice of the generated item. -/
structure QtiChoice where
  ident : Str
  html : Str
deriving DecidableEq, Repr

/-- Structured content of the item XML emitted by
QTI_createMultipleChoiceSingleItem: the stem, the effective option list
(after any placeholder padding), the rendered choices, the resolved
correct choice identifier, and the scoring conditions in order. -/
structure QtiMCItem where
  stemHtml : Str
  effOptions : List OptionEntry
  choices : List QtiChoice
  correctChoice : Option Str
  conds : List RespCond
deriving DecidableEq, Repr

/-- Choice identifier derived from an option letter
(choice underscore letter; the letter, a single character, is never the
empty string, so the index fallback of the source is unreachable). -/
def choiceIdent (o : OptionEntry) : Str := "choice_".data ++ [o.letter]

/-- JavaScript truthiness of a correctAnswer value: null and the number
zero are falsy; strings from the decoders are nonempty and arrays are
always truthy. -/
def ansTruthy : Option AnswerData → Bool
  | none => false
  | some (.numeric x) => !(x = 0)
  | some _ => true

/-- Strict equality of the correctAnswer value with an option letter:
only a single-letter answer can be equal to a letter string. -/
def ansEqLetter : Option AnswerData → Char → Bool
  | some (.letter d), c => d = c
  | _, _ => false

/-- QTIExport.QTI_createMultipleChoiceSingleItem (lines 859 to 954):
pads an empty option list with two placeholder options (True/False for a
TRUE_FALSE item), defaults a null answer to the first padded letter in
that branch, resolves the correct choice by strict letter equality with
last match winning, defaults an unresolved correct choice to the first
option, and emits the full-score condition, its negated zero-score twin,
or the catch-all zero-score condition when no choice resolved. -/
def QTI_createMultipleChoiceSingleItem (q : IR) : QtiMCItem :=
  let (effOptions, effAnswer) : List OptionEntry × Option AnswerData :=
    if q.options.isEmpty then
      let padded : List OptionEntry :=
        if q.qtype = .TRUE_FALSE then
          [⟨'T', "True".data, []⟩, ⟨'F', "False".data, []⟩]
        else
          [⟨'A', "Option A".data, []⟩, ⟨'B', "Option B".data, []⟩]
      (padded,
        if q.correctAnswer = none then
          match padded.head? with
          | some o => some (.letter o.letter)
          | none => none
        else q.correctAnswer)
    else (q.options, q.correctAnswer)
  let stemText := replaceImagePlaceholdersWithHtml
    (if q.text.isEmpty then "Question ".data ++ (toString q.number).data else q.text)
    q.images
  let choices := effOptions.map (fun o =>
    ⟨choiceIdent o,
      "<![CDATA[".data
        ++ replaceImagePlaceholdersWithHtml
             (if o.text.isEmpty then "Option ".data ++ [o.letter] else o.text) o.images
        ++ "]]>".data⟩)
  let resolved := effOptions.foldl (fun acc o =>
    if ansTruthy effAnswer && ansEqLetter effAnswer o.letter then some (choiceIdent o)
    else acc) none
  let correctChoiceIdentifier :=
    match resolved with
    | some c => some c
    | none =>
      match effOptions.head? with
      | some o => some (choiceIdent o)
      | none => none
  let conds : List RespCond :=
    match correctChoiceIdentifier with
    | some c => [⟨false, some c, 100⟩, ⟨true, some c, 0⟩]
    | none => [⟨false, none, 0⟩]
  { stemHtml := "<![CDATA[".data ++ stemText ++ "]]>".data,
    effOptions := effOptions,
    choices := choices,
    correctChoice := correctChoiceIdentifier,
    conds := conds }

/-! ## Conversion orchestrator (Code.gs startConversion) -/

/-- Application error surfaced to the user (AppError.gs): a short title
and a user-actionable message. -/
structure AppErr where
  title : Str
  userMessage : Str
deriving DecidableEq, Repr

/-- Error thrown by startConversion when parseQuestions returned no
questions (Code.gs line 120). -/
def parsingError : AppErr :=
  ⟨"Parsing Error".data, "No questions could be parsed from the document.".data⟩

/-- Successful conversion payload: the combined intermediate model and
the QTI 1.2 item documents generated from it.  Item generation is
modelled for the single-choice/true-false family, which is all the
verified claims examine; the slots of other item families are none. -/
structure ConversionOk where
  irs : List IR
  mcItems : List (Option QtiMCItem)
deriving DecidableEq, Repr

/-- Core data path of Code.startConversion: structural parse, fatal
AppError when no question was parsed (before any export is attempted),
then answer-key parse, combination, and export. -/
def startConversionModel (g : Nat → Str) (elems : List Elem) :
    Except AppErr ConversionOk :=
  let pr := parseQuestionsModel g elems
  if pr.questions.isEmpty then .error parsingError
  else
    let ak := parseAnswerKeyModel pr.typeMap elems
    let combined := combineQuestionsAndAnswers pr.questions ak.answers
    .ok
      { irs := combined,
        mcItems := combined.map (fun q =>
          if q.qtype = .MULTIPLE_CHOICE_SINGLE || q.qtype = .TRUE_FALSE then
            some (QTI_createMultipleChoiceSingleItem q)
          else none) }

/-! ## Claim theorems -/

/-- Scenario A block stream. -/
def scenarioABlocks : List Elem :=
  (["1. What is 2+2?", "A. 3", "B. 4", "Answer Key", "1. B"]).map tb

/-- Stems matching none of the keyword rules of inferQuestionType
(true/false, matching, ordering, triple underscore). -/
def stemKeywordFree (text : Str) : Bool :=
  !tfKeyword text && !matchingKeyword text && !orderingKeyword text &&
    !underscoreKeyword text

/-- Multiple-choice IR entry with exactly one option and no answer
record. -/
def c5OneOption : IR :=
  { number := 1, qtype := .MULTIPLE_CHOICE_SINGLE, text := "Q".data,
    options := [⟨'A', "only".data, []⟩], images := [], hasImages := false,
    correctAnswer := none }

/-- Multiple-choice IR entry with no options and no answer record. -/
def c5Empty : IR :=
  { number := 2, qtype := .MULTIPLE_CHOICE_SINGLE, text := "Q2".data,
    options := [], images := [], hasImages := false, correctAnswer := none }

/-- Decoded answer-key lines for question number n, in document
order (the observation the duplicate-handling claim is about). -/
def akHits (tm : Nat → Option QType) (lines : List Str) (n : Nat) :
    List (Nat × AnswerData) :=
  (lines.filterMap (parseAnswerLine tm)).filter (fun r => r.1 = n)

/-- Lines of the answer-key section: everything after the first block
matching an answer-key header. -/
def answerKeySection (ts : List Str) : List Str :=
  match ts.dropWhile (fun t => !isAnswerKeyHeader t) with
  | [] => []
  | _ :: rest => rest

/-- Numbers of the leading-integer markers, in order and with
multiplicity, among the blocks before the first strict answer-key
header (the claim's markers before the boundary). -/
def markerNumbersBeforeBoundary (blocks : List String) : List Nat :=
  ((blocks.map (fun s => jsTrim s.data)).takeWhile (fun t => !answerKeyQP t)).filterMap
    (fun t => (questionStartMatch t).map (fun r => r.1))

/-! ## Symbolic texts for the id-independence analysis (C9)

A symbolic text records the literal characters of the document together
with abstract placeholder positions; flattening against an id supply
recovers the concrete text that the parser sees.  Two runs with
different supplies parse flattenings of the same symbolic text. -/

/-- Symbolic token: a literal character or the placeholder of the k-th
minted image. -/
inductive STok where
  | c (ch : Char)
  | ph (k : Nat)
deriving DecidableEq, Repr

/-- Symbolic text. -/
abbrev SymText := List STok

/-- Concrete characters of one token under the id supply g. -/
def flattenTok (g : Nat → Str) : STok → Str
  | .c ch => [ch]
  | .ph k => placeholder (g k)

/-- Concrete text of a symbolic text under the id supply g. -/
def flatten (g : Nat → Str) : SymText → Str
  | [] => []
  | t :: rest => flattenTok g t ++ flatten g rest

/-- Lowercase hexadecimal digit: the alphabet of getUuid output. -/
def isHexLower (c : Char) : Bool :=
  isDigit c || ('a' ≤ c && c ≤ 'f')

/-- Well-formed id supply, as produced by getUuid with dashes removed:
every id is a nonempty string of lowercase hexadecimal characters, and
distinct counter values yield distinct ids. -/
structure IdsOk (g : Nat → Str) : Prop where
  ne : ∀ k, g k ≠ []
  hex : ∀ k, ∀ c ∈ g k, isHexLower c = true
  inj : Function.Injective g

/-- Token equality with a literal character. -/
def isTok (ch : Char) : STok → Bool
  | .c d => d = ch
  | .ph _ => false

/-- Does the text start with the four literal characters bracket, I, M,
G — the only way a placeholder-opening sequence can arise from document
characters. -/
def startsImgRun : SymText → Bool
  | t1 :: t2 :: t3 :: t4 :: _ =>
    isTok '[' t1 && isTok 'I' t2 && isTok 'M' t3 && isTok 'G' t4
  | _ => false

/-- Does a placeholder-opening character sequence occur anywhere in the
literal characters of the text. -/
def hasImgRun : SymText → Bool
  | [] => false
  | st@(_ :: rest) => startsImgRun st || hasImgRun rest

/-- Character-class predicate lifted to tokens; a placeholder never
satisfies it (its first concrete character is an opening bracket). -/
def tokPred (p : Char → Bool) : STok → Bool
  | .c ch => p ch
  | .ph _ => false

/-- First concrete character of a symbolic text. -/
def symHead : SymText → Option Char
  | [] => none
  | .c ch :: _ => some ch
  | .ph _ :: _ => some '['

/-- Last concrete character of a symbolic text. -/
def symLast (st : SymText) : Option Char :=
  match st.getLast? with
  | none => none
  | some (.c ch) => some ch
  | some (.ph _) => some ']'

/-- Reverse-order concrete characters of one token. -/
def flattenTokRev (g : Nat → Str) : STok → Str
  | .c ch => [ch]
  | .ph k => (placeholder (g k)).reverse

/-- Reverse-order flattening helper. -/
def flattenRev (g : Nat → Str) : SymText → Str
  | [] => []
  | t :: rest => flattenTokRev g t ++ flattenRev g rest

/-- Trim lifted to symbolic texts. -/
def symTrim (st : SymText) : SymText :=
  ((st.dropWhile (tokPred isWs)).reverse.dropWhile (tokPred isWs)).reverse

/-- Case-insensitive prefix strip lifted to symbolic texts: a pattern of
non-bracket characters can only consume literal characters. -/
def symStripCI : Str → SymText → Option SymText
  | [], st => some st
  | _ :: _, [] => none
  | c :: p, .c d :: st => if c.toUpper = d.toUpper then symStripCI p st else none
  | _ :: _, .ph _ :: _ => none

/-- Tokens that cannot stand at positions 0 to 2 of a
placeholder-opening run (safe as the last token before a junction). -/
def blockTokL (t : STok) : Bool := !(isTok '[' t || isTok 'I' t || isTok 'M' t)

/-- Tokens that cannot stand at positions 1 to 3 of a
placeholder-opening run (safe as the first token after a junction). -/
def blockTokR (t : STok) : Bool := !(isTok 'I' t || isTok 'M' t || isTok 'G' t)

/-- Erase placeholder indices (the opening-run check never reads
them). -/
def erasePh : SymText → SymText :=
  List.map (fun t =>
    match t with
    | .ph _ => .ph 0
    | x => x)

/-- Symbolic processParts: tokens, minted counter values, advanced
counter. -/
def symProcessParts : List Part → Nat → SymText × List Nat × Nat
  | [], ctr => ([], [], ctr)
  | .txt s :: r, ctr =>
    let (t, ks, c2) := symProcessParts r ctr
    (s.map .c ++ t, ks, c2)
  | .img :: r, ctr =>
    let (t, ks, c2) := symProcessParts r (ctr + 1)
    (.ph ctr :: t, ctr :: ks, c2)

/-- Placeholder-index-independent view of an element's symbolic text. -/
def partsView : List Part → SymText
  | [] => []
  | .txt s :: r => s.map .c ++ partsView r
  | .img :: r => .ph 0 :: partsView r

/-- Cleanliness of one document element: its literal characters never
spell a placeholder opening, at any junction of its text runs. -/
def cleanElem (e : Elem) : Bool := !hasImgRun (partsView e.parts)

/-- Literal characters of a symbolic text (placeholders skipped); on
placeholder-free texts this is the flattening under any supply. -/
def literalChars : SymText → Str
  | [] => []
  | .c ch :: r => ch :: literalChars r
  | .ph _ :: r => literalChars r

/-- Strict answer-key regex lifted to symbolic texts. -/
def symAnswerKeyQP (st : SymText) : Bool :=
  match symStripCI "ANSWER".data (st.dropWhile (tokPred isWs)) with
  | none => false
  | some l2 =>
    if (l2.takeWhile (tokPred isWs)).isEmpty then false
    else
      match symStripCI "KEY".data (l2.dropWhile (tokPred isWs)) with
      | none => false
      | some l4 =>
        let l5 := l4.dropWhile (tokPred isWs)
        let l6 := match l5 with
          | .c ':' :: r => r
          | _ => l5
        (l6.dropWhile (tokPred isWs)).isEmpty

/-- Question-start regex lifted to symbolic texts. -/
def symQuestionStartMatch (st : SymText) : Option (Nat × SymText) :=
  let l1 := st.dropWhile (tokPred isWs)
  let ds := l1.takeWhile (tokPred isDigit)
  if ds.isEmpty then none
  else
    match (l1.dropWhile (tokPred isDigit)).dropWhile (tokPred isWs) with
    | .c c :: l3 =>
      if c = '.' || c = ')' || c = '-' then
        if (l3.takeWhile (tokPred isWs)).isEmpty then none
        else some (natOfDigits (literalChars ds), l3.dropWhile (tokPred isWs))
      else none
    | .ph _ :: _ => none
    | [] => none

/-- Option-marker regex lifted to symbolic texts. -/
def symOptionMatch (st : SymText) : Option (Char × SymText) :=
  match st.dropWhile (tokPred isWs) with
  | [] => none
  | .ph _ :: _ => none
  | .c c :: l2 =>
    if isAsciiLetter c then
      match l2.dropWhile (tokPred isWs) with
      | .c d :: l3 =>
        if d = '.' || d = ')' then
          if (l3.takeWhile (tokPred isWs)).isEmpty then none
          else some (c.toUpper, l3.dropWhile (tokPred isWs))
        else none
      | .ph _ :: _ => none
      | [] => none
    else if c = '(' then
      match l2.dropWhile (tokPred isWs) with
      | .c d :: l3 =>
        if isAsciiLetter d then
          match l3.dropWhile (tokPred isWs) with
          | .c e :: l4 =>
            if e = ')' then
              if (l4.takeWhile (tokPred isWs)).isEmpty then none
              else some (d.toUpper, l4.dropWhile (tokPred isWs))
            else none
          | .ph _ :: _ => none
          | [] => none
        else none
      | .ph _ :: _ => none
      | [] => none
    else none

/-! ## Substring machinery for the re-run stability analysis -/

/-- Prefix test lifted to symbolic texts: a pattern free of opening
brackets can only match literal characters. -/
def symStartsWith : Str → SymText → Bool
  | [], _ => true
  | _ :: _, [] => false
  | c :: w, .c d :: st => (c = d) && symStartsWith w st
  | _ :: _, .ph _ :: _ => false

/-- Character alphabet of a spliced placeholder whose id characters all
satisfy A: brackets, the IMG marker letters, and the colon. -/
def phChar (A : Char → Bool) (c : Char) : Bool :=
  c = '[' || c = ']' || c = 'I' || c = 'M' || c = 'G' || c = ':' || A c

/-- A pattern that can neither contain a bracket nor be spelled entirely
from placeholder characters; no occurrence of such a pattern in the
flattened text can intersect a spliced placeholder. -/
structure KwSafe (A : Char → Bool) (w : Str) : Prop where
  nolb : '[' ∉ w
  norb : ']' ∉ w
  out : ∃ c ∈ w, phChar A c = false

/-- Substring test lifted to symbolic texts, for patterns whose
occurrences cannot intersect placeholders. -/
def symContainsSub (w : Str) : SymText → Bool
  | [] => w.isEmpty
  | st@(.c _ :: r) => symStartsWith w st || symContainsSub w r
  | .ph _ :: r => symContainsSub w r

/-- Bounded word search lifted to symbolic texts: placeholders are
skipped whole, leaving a closing bracket as the previous character. -/
def symFindBounded (w : Str) : Option Char → SymText → Option SymText
  | _, [] => none
  | _, .ph _ :: rest => symFindBounded w (some ']') rest
  | prev, .c c :: rest =>
    let boundaryBefore := match prev with
      | none => true
      | some p => !isWordChar p
    if boundaryBefore && symStartsWith w (.c c :: rest) then
      let after := (.c c :: rest : SymText).drop w.length
      match symHead after with
      | none => some after
      | some d => if isWordChar d then symFindBounded w (some c) rest else some after
    else symFindBounded w (some c) rest

/-! ## Uppercase transport and keyword commutation -/

/-- Uppercase hexadecimal digit. -/
def isHexUpper (c : Char) : Bool :=
  isDigit c || ('A' ≤ c && c ≤ 'F')

/-- Hexadecimal digit of either case: the id alphabet closed under the
uppercase map of the keyword tests. -/
def isHexAny (c : Char) : Bool := isHexLower c || isHexUpper c

/-- Uppercasing of the literal characters of a symbolic text. -/
def symUpper : SymText → SymText :=
  List.map (fun t => match t with
    | .c ch => .c ch.toUpper
    | x => x)

/-- The id supply as seen through the uppercase map of the keyword
tests. -/
def upperIds (g : Nat → Str) : Nat → Str := fun k => (g k).map Char.toUpper

/-- TRUE-before-FALSE regex lifted to symbolic texts. -/
def symTrueFalseRegex (u : SymText) : Bool :=
  match symFindBounded "TRUE".data none u with
  | none => false
  | some rest => (symFindBounded "FALSE".data (some 'E') rest).isSome

/-- True/false keyword rule lifted to symbolic texts. -/
def symTfKeyword (st : SymText) : Bool :=
  symTrueFalseRegex (symUpper st) || symContainsSub "TRUE/FALSE".data (symUpper st)

/-- Matching keyword rule lifted to symbolic texts. -/
def symMatchingKeyword (st : SymText) : Bool :=
  (symFindBounded "MATCHING".data none (symUpper st)).isSome ||
    (match symStripCI "MATCH".data (st.dropWhile (tokPred isWs)) with
     | some l2 =>
       match symHead l2 with
       | some d => isWs d
       | none => false
     | none => false)

/-- Ordering keyword rule lifted to symbolic texts. -/
def symOrderingKeyword (st : SymText) : Bool :=
  (symFindBounded "ORDERING".data none (symUpper st)).isSome ||
    (symFindBounded "ORDER".data none (symUpper st)).isSome ||
    (symFindBounded "SEQUENCE".data none (symUpper st)).isSome

/-- Triple-underscore rule lifted to symbolic texts. -/
def symUnderscoreKeyword (st : SymText) : Bool :=
  symContainsSub "___".data st

/-- Type inference on a fresh stem (no options yet) lifted to symbolic
texts. -/
def symInferNoOpts (st : SymText) : QType :=
  if symTfKeyword st then .TRUE_FALSE
  else if symMatchingKeyword st then .MATCHING
  else if symOrderingKeyword st then .ORDERING
  else if symUnderscoreKeyword st then .FILL_IN_BLANK_TEXT
  else .SHORT_ANSWER

/-! ## Symbolic parser state and realization -/

/-- Image record of the symbolic run: the counter value at which the id
was minted, the question number and the element index that enter the
generated filename. -/
structure SymMeta where
  k : Nat
  qnum : Nat
  elemIdx : Nat
deriving DecidableEq, Repr

/-- Realize an image record under an id supply. -/
def realizeMeta (g : Nat → Str) (m : SymMeta) : ImageMeta :=
  ⟨g m.k, generateImageFilename m.qnum (imageContext m.elemIdx (g m.k)) (g m.k)⟩

/-- Symbolic parsed option. -/
structure SymOption where
  letter : Char
  text : SymText
  images : List SymMeta
deriving DecidableEq, Repr

/-- Realize a symbolic option under an id supply. -/
def realizeOpt (g : Nat → Str) (o : SymOption) : OptionEntry :=
  ⟨o.letter, flatten g o.text, o.images.map (realizeMeta g)⟩

/-- Symbolic question. -/
structure SymQuestion where
  number : Nat
  qtype : QType
  text : SymText
  options : List SymOption
  images : List SymMeta
  hasImages : Bool
deriving DecidableEq, Repr

/-- Realize a symbolic question under an id supply. -/
def realizeQ (g : Nat → Str) (q : SymQuestion) : Question :=
  ⟨q.number, q.qtype, flatten g q.text, q.options.map (realizeOpt g),
    q.images.map (realizeMeta g), q.hasImages⟩

/-- Symbolic loop state of parseQuestions. -/
structure SymPQState where
  questions : List SymQuestion
  cur : Option SymQuestion
  accImgs : List SymMeta
  allImages : List SymMeta
  ctr : Nat
  typeMap : Nat → Option QType

/-- Realize a symbolic state under an id supply. -/
def realizeState (g : Nat → Str) (s : SymPQState) : PQState :=
  ⟨s.questions.map (realizeQ g), s.cur.map (realizeQ g),
    s.accImgs.map (realizeMeta g), s.allImages.map (realizeMeta g),
    s.ctr, s.typeMap⟩

/-- Cleanliness of a symbolic question: neither its stem nor any option
text spells a placeholder opening with literal characters. -/
def cleanQ (q : SymQuestion) : Prop :=
  hasImgRun q.text = false ∧ ∀ o ∈ q.options, hasImgRun o.text = false

/-- Cleanliness of the current draft, if any. -/
def cleanCur : Option SymQuestion → Prop
  | none => True
  | some q => cleanQ q

/-- Symbolic finalizeDraft. -/
def symFinalizeDraft (q : SymQuestion) (acc : List SymMeta) : SymQuestion :=
  let imgs := acc.filter (fun im =>
    q.text.contains (.ph im.k) || q.options.any (fun o => o.text.contains (.ph im.k)))
  { q with images := imgs, hasImages := !imgs.isEmpty }

/-- Symbolic pqFinish. -/
def symPqFinish (s : SymPQState) : SymPQState :=
  match s.cur with
  | some q => { s with questions := s.questions ++ [symFinalizeDraft q s.accImgs],
                       cur := none }
  | none => s

/-- Symbolic appendStem. -/
def symAppendStem (stem text : SymText) : SymText :=
  let needsSpace := !stem.isEmpty &&
    !(match symLast stem with
      | some c => isWs c
      | none => false) &&
    !(match symHead text with
      | some c => c = '.' || c = ',' || c = ';' || c = ':' || c = '!' || c = '?'
      | none => false)
  stem ++ (if needsSpace then [.c ' '] else []) ++ text

/-- Symbolic processElement. -/
def symProcessElement (e : Elem) (ctr : Nat) : SymText × List Nat × Nat :=
  let r := symProcessParts e.parts ctr
  (symTrim r.1, r.2.1, r.2.2)

/-- One symbolic parseQuestions iteration; none signals the answer-key
boundary. -/
def symPqStep (i : Nat) (e : Elem) (s : SymPQState) : Option SymPQState :=
  let r := symProcessElement e s.ctr
  let text := r.1
  let ks := r.2.1
  let ctr2 := r.2.2
  if text.isEmpty && ks.isEmpty then some s
  else if symAnswerKeyQP text then none
  else
    some <|
      let metas := ks.map (fun k => (⟨k, (match s.cur with
          | some q => q.number
          | none => 0), i⟩ : SymMeta))
      let s1 : SymPQState := { s with accImgs := s.accImgs ++ metas,
                                      allImages := s.allImages ++ metas, ctr := ctr2 }
      match symQuestionStartMatch text with
      | some (n, restRaw) =>
        let textStart := symTrim restRaw
        let s2 := symPqFinish s1
        let acc2 := s1.accImgs.filter (fun im => text.contains (.ph im.k))
        let ty := symInferNoOpts textStart
        let q : SymQuestion :=
          { number := n, qtype := ty, text := textStart, options := [],
            images := [], hasImages := !acc2.isEmpty }
        { s2 with cur := some q, accImgs := acc2,
                  typeMap := fun m => if m = n then some ty else s2.typeMap m }
      | none =>
        match s1.cur with
        | some q =>
          match symOptionMatch text with
          | some (letter, optRaw) =>
            let optText := symTrim optRaw
            let optImgs := s1.accImgs.filter
              (fun im => optText.contains (.ph im.k))
            let opts2 := q.options ++ [⟨letter, optText, optImgs⟩]
            let pr :=
              if !reinferBlocked q.qtype then
                let currentLetters := opts2.map (·.letter)
                let newTy :=
                  if currentLetters.contains 'T' && currentLetters.contains 'F' then
                    QType.TRUE_FALSE
                  else QType.MULTIPLE_CHOICE_SINGLE
                (newTy, fun m => if m = q.number then some newTy else s1.typeMap m)
              else (q.qtype, s1.typeMap)
            let q2 := { q with options := opts2, qtype := pr.1,
                               hasImages := q.hasImages || !ks.isEmpty }
            { s1 with cur := some q2, typeMap := pr.2 }
          | none =>
            let q2 := if !text.isEmpty then { q with text := symAppendStem q.text text } else q
            let q3 := { q2 with hasImages := q2.hasImages || !ks.isEmpty }
            { s1 with cur := some q3 }
        | none => s1

/-- Symbolic main loop. -/
def symPqLoop : Nat → List Elem → SymPQState → SymPQState
  | _, [], s => symPqFinish s
  | i, e :: rest, s =>
    match symPqStep i e s with
    | none => symPqFinish s
    | some s2 => symPqLoop (i + 1) rest s2

/-- Symbolic structural parse result. -/
structure SymPQResult where
  questions : List SymQuestion
  allImages : List SymMeta
  typeMap : Nat → Option QType

/-- Symbolic parseQuestions over a document element stream. -/
def symParseQuestions (elems : List Elem) : SymPQResult :=
  let s := symPqLoop 0 elems ⟨[], none, [], [], 0, fun _ => none⟩
  ⟨s.questions, s.allImages, s.typeMap⟩

/-- Concrete id supply for the first witness run. -/
def c9SupplyA : Nat → Str := fun k => List.replicate (k + 1) 'a'

/-- Concrete id supply for the second witness run. -/
def c9SupplyB : Nat → Str := fun k => List.replicate (k + 1) 'b'

/-- Concrete three-block document with one inline image for the witness
run. -/
def c9Blocks : List Elem :=
  [⟨[.txt "1. Identify the shape shown: ".data, .img]⟩, tb "A. circle", tb "B. square"]

/-- Document whose second marker block forges, as literal characters,
the placeholder of the id minted for the first block under the first
supply. -/
def c9CounterBlocks : List Elem :=
  [⟨[.txt "1. first ".data, .img]⟩, tb "2. second [IMG:a]"]

/-- C1: on the Scenario A five-block input, the pipeline (structural
parse, type inference, answer-key parse, combination, QTI 1.2 item
generation) produces exactly one IR entry, typed
MULTIPLE_CHOICE_SINGLE with correct answer letter B; the generated item
has exactly one condition setting SCORE to the full value 100, and it is
a non-negated varequal on choice underscore B, the choice identifier of
option B. -/
theorem c1_scenarioA_pipeline :
    (startConversionModel noIds scenarioABlocks).map
      (fun r =>
        (r.irs.map (fun ir =>
          (ir.number, ir.qtype, ir.correctAnswer, ir.options.map (·.letter))),
         r.mcItems.map (fun it => it.map (fun item =>
           ((item.conds.filter (fun c => c.score = 100)).map
              (fun c => (c.negated, c.varequal)),
            item.effOptions.map (fun o => (o.letter, choiceIdent o)),
            item.choices.map (·.ident))))))
      = .ok
        ([(1, .MULTIPLE_CHOICE_SINGLE, some (.letter 'B'), ['A', 'B'])],
         [some ([(false, some "choice_B".data)],
                [('A', "choice_A".data), ('B', "choice_B".data)],
                ["choice_A".data, "choice_B".data])]) := by
  rfl

/-- C10: sanitizeHtml is the identity on every string: each of its four
chained global replacements substitutes a character with that same
character, so ampersand, angle brackets and double quotes pass into the
generated documents unescaped. -/
theorem c10_sanitizeHtml_identity (text : Str) : sanitizeHtml text = text := by
  have h : ∀ (c : Char) (t : Str), replaceAllChar c c t = t := by
    intro c t
    induction t with
    | nil => rfl
    | cons a r ih =>
      simp only [replaceAllChar, List.map_cons] at *
      by_cases hd : a = c <;> simp [hd, ih]
  simp only [sanitizeHtml, h]

/-- Processing a text-only block: the trimmed text, no image ids, the
counter unchanged. -/
theorem processElement_tb (g : Nat → Str) (s : String) (ctr : Nat) :
    processElement g (tb s) ctr = (jsTrim s.data, [], ctr) := by
  simp [processElement, tb, processParts]

/-- A text-only block matching the strict answer-key regex makes the
parseQuestions step signal the boundary. -/
theorem pqStep_tb_header (g : Nat → Str) (i : Nat) (s : String) (st : PQState)
    (hs : answerKeyQP (jsTrim s.data) = true) :
    pqStep g i (tb s) st = none := by
  have hne : (jsTrim s.data).isEmpty = false := by
    cases h : jsTrim s.data with
    | nil => rw [h] at hs; exact absurd hs (by decide)
    | cons a r => rfl
  simp [pqStep, processElement_tb, hne, hs]

/-- After a text-only block matching the strict answer-key regex, the
loop ignores every remaining element and finalizes. -/
theorem pqLoop_stops_at_header (g : Nat → Str) (s : String)
    (hs : answerKeyQP (jsTrim s.data) = true) (post : List Elem) :
    ∀ (pre : List Elem) (i : Nat) (st : PQState),
      pqLoop g i (pre ++ tb s :: post) st = pqLoop g i pre st := by
  intro pre
  induction pre with
  | nil =>
    intro i st
    simp only [List.nil_append]
    conv_lhs => rw [pqLoop]
    rw [pqStep_tb_header g i s st hs]
    rfl
  | cons e pre ih =>
    intro i st
    simp only [List.cons_append]
    rw [pqLoop, pqLoop]
    cases pqStep g i e st with
    | none => rfl
    | some s2 => exact ih (i + 1) s2

/-- C2, counterexample: a block reading Answers alone matches the
answer-key header family recognized by the answer-key parser, but the
structural parser does not stop there; the block is appended to the
current stem and the following numbered block still becomes a
question. -/
theorem c2_counterexample :
    isAnswerKeyHeader "Answers".data = true ∧
    (parseQuestionsText ["1. Q", "Answers", "2. R"]).questions.map
        (fun q => (q.number, q.text)) =
      [(1, "Q Answers".data), (2, "R".data)] := by
  exact ⟨by decide, by rfl⟩

/-- C2, amended: the structural parser stops consuming blocks exactly at
the strict pattern ANSWER whitespace KEY with optional colon
(case-insensitive, whole line); when such a block is reached, the
current draft (if any) is finalized and no later block is consumed, so
the parse of the whole stream equals the parse of the prefix before the
header.  Blocks reading Answers or Key alone are not boundaries for the
structural parser (they are stem continuations or dropped preamble),
though the answer-key parser recognizes all three patterns. -/
theorem c2_structural_boundary (g : Nat → Str) (s : String) (pre post : List Elem)
    (hs : answerKeyQP (jsTrim s.data) = true) :
    parseQuestionsModel g (pre ++ tb s :: post) = parseQuestionsModel g pre := by
  unfold parseQuestionsModel
  rw [pqLoop_stops_at_header g s hs post pre 0]

/-- Witness for the amended C2 at a concrete input. -/
theorem c2_structural_boundary_witness :
    answerKeyQP (jsTrim "Answer Key".data) = true ∧
    parseQuestionsModel noIds ([tb "1. Q"] ++ tb "Answer Key" :: [tb "9. X"]) =
      parseQuestionsModel noIds [tb "1. Q"] :=
  ⟨by decide, c2_structural_boundary noIds "Answer Key" [tb "1. Q"] [tb "9. X"] (by decide)⟩

/-- C3, counterexample: on a keyword-free stem, one option with letter A
infers MULTIPLE_CHOICE_SINGLE, not SHORT_ANSWER as the claim states; and
the option letter set T, F, G, which is not exactly the pair T and F,
still infers TRUE_FALSE (the source tests containment of both letters,
not set equality). -/
theorem c3_counterexample :
    stemKeywordFree "Pick one".data = true ∧
    inferQuestionType "Pick one".data [⟨'A', "x".data, []⟩] = .MULTIPLE_CHOICE_SINGLE ∧
    inferQuestionType "Pick one".data [⟨'A', "x".data, []⟩] ≠ .SHORT_ANSWER ∧
    inferQuestionType "Pick one".data
        [⟨'T', "x".data, []⟩, ⟨'F', "y".data, []⟩, ⟨'G', "z".data, []⟩] = .TRUE_FALSE := by
  decide

/-- C3, amended: for a keyword-free stem the inferred type is TRUE_FALSE
exactly when the option letters contain both T and F (extra letters
allowed), MULTIPLE_CHOICE_SINGLE exactly when the options are nonempty
without both T and F (including a single option), and SHORT_ANSWER
exactly when there are no options. -/
theorem c3_infer_structural (text : Str) (opts : List OptionEntry)
    (h : stemKeywordFree text = true) :
    (inferQuestionType text opts = .TRUE_FALSE ↔
      ('T' ∈ opts.map (·.letter) ∧ 'F' ∈ opts.map (·.letter))) ∧
    (inferQuestionType text opts = .MULTIPLE_CHOICE_SINGLE ↔
      (opts ≠ [] ∧ ¬('T' ∈ opts.map (·.letter) ∧ 'F' ∈ opts.map (·.letter)))) ∧
    (inferQuestionType text opts = .SHORT_ANSWER ↔ opts = []) := by
  simp only [stemKeywordFree, Bool.and_eq_true, Bool.not_eq_true'] at h
  obtain ⟨⟨⟨h1, h2⟩, h3⟩, h4⟩ := h
  unfold inferQuestionType
  simp only [h1, h2, h3, h4, Bool.false_eq_true, if_false]
  by_cases ho : opts = []
  · subst ho; simp
  · have hlen : opts.length > 0 := by
      cases opts with
      | nil => exact absurd rfl ho
      | cons a r => simp
    simp only [hlen, if_true]
    by_cases hT : 'T' ∈ opts.map (·.letter) <;>
      by_cases hF : 'F' ∈ opts.map (·.letter) <;>
      simp [hT, hF, ho]

/-- Witness for the amended C3 at a concrete input. -/
theorem c3_infer_structural_witness :
    stemKeywordFree "Pick two".data = true ∧
    ((inferQuestionType "Pick two".data [⟨'A', "x".data, []⟩] = .TRUE_FALSE ↔
        ('T' ∈ [⟨'A', "x".data, []⟩].map (OptionEntry.letter) ∧
         'F' ∈ [⟨'A', "x".data, []⟩].map (OptionEntry.letter))) ∧
     (inferQuestionType "Pick two".data [⟨'A', "x".data, []⟩] = .MULTIPLE_CHOICE_SINGLE ↔
        (([⟨'A', "x".data, []⟩] : List OptionEntry) ≠ [] ∧
         ¬('T' ∈ [⟨'A', "x".data, []⟩].map (OptionEntry.letter) ∧
           'F' ∈ [⟨'A', "x".data, []⟩].map (OptionEntry.letter)))) ∧
     (inferQuestionType "Pick two".data [⟨'A', "x".data, []⟩] = .SHORT_ANSWER ↔
        ([⟨'A', "x".data, []⟩] : List OptionEntry) = [])) :=
  ⟨by decide, c3_infer_structural "Pick two".data [⟨'A', "x".data, []⟩] (by decide)⟩

/-- With no leading-integer marker anywhere, the loop never creates a
draft: the question list comes out unchanged. -/
theorem pqLoop_no_markers (g : Nat → Str) :
    ∀ (blocks : List String), (∀ s ∈ blocks, questionStartMatch (jsTrim s.data) = none) →
    ∀ (i : Nat) (st : PQState), st.cur = none →
      (pqLoop g i (blocks.map tb) st).questions = st.questions := by
  intro blocks
  induction blocks with
  | nil => intro _ i st hc; simp [pqLoop, pqFinish, hc]
  | cons b rest ih =>
    intro hb i st hc
    have hbm : questionStartMatch (jsTrim b.data) = none := hb b (List.mem_cons_self b rest)
    have hbr : ∀ s ∈ rest, questionStartMatch (jsTrim s.data) = none :=
      fun s hs => hb s (List.mem_cons_of_mem b hs)
    simp only [List.map_cons]
    conv_lhs => rw [pqLoop]
    by_cases hk : answerKeyQP (jsTrim b.data) = true
    · rw [pqStep_tb_header g i b st hk]
      simp [pqFinish, hc]
    · have hstep : pqStep g i (tb b) st = some st := by
        obtain ⟨qs, scur, sacc, sall, sctr, stm⟩ := st
        have hc2 : scur = none := hc
        subst hc2
        unfold pqStep
        rw [processElement_tb]
        by_cases he : (jsTrim b.data).isEmpty
        · simp [he]
        · simp [he, hk, hbm]
      rw [hstep]
      exact ih hbr (i + 1) st hc

/-- C4, counterexample: on a document with zero leading-integer markers
the structural parser does not fail; it returns normally with an empty
question list (the fatal throw inside parseQuestions is commented out
and only a warning is logged).  The fatal error is raised afterwards by
the orchestrator startConversion, as an AppError titled Parsing Error,
before the export backend is reached. -/
theorem c4_counterexample :
    (parseQuestionsText ["This document has no numbered questions."]).questions = [] ∧
    startConversionModel noIds [tb "This document has no numbered questions."] =
      .error parsingError := by
  exact ⟨by rfl, by rfl⟩

/-- C4, amended: for every document whose blocks contain no
leading-integer marker, the structural parser returns an empty question
list without failing, and the conversion run then aborts with the fatal
Parsing Error AppError thrown by startConversion before any export
backend is invoked (the error is raised before the export stage of the
model, so no item document is produced). -/
theorem c4_no_markers_aborts (blocks : List String)
    (h : ∀ s ∈ blocks, questionStartMatch (jsTrim s.data) = none) :
    (parseQuestionsText blocks).questions = [] ∧
    startConversionModel noIds (blocks.map tb) = .error parsingError := by
  have hq : (parseQuestionsModel noIds (blocks.map tb)).questions = [] :=
    pqLoop_no_markers noIds blocks h 0 _ rfl
  refine ⟨hq, ?_⟩
  simp [startConversionModel, hq]

/-- Witness for the amended C4 at a concrete input. -/
theorem c4_no_markers_aborts_witness :
    (∀ s ∈ ["hello world"], questionStartMatch (jsTrim (String.data s)) = none) ∧
    ((parseQuestionsText ["hello world"]).questions = [] ∧
     startConversionModel noIds (["hello world"].map tb) = .error parsingError) :=
  ⟨by decide, c4_no_markers_aborts ["hello world"] (by decide)⟩

/-- C5, counterexample: an MC entry with exactly one option (fewer than
two) is NOT padded; the emitted item renders a single choice, contrary
to the claim that any entry with fewer than two options is padded to at
least two.  The padding branch of the source fires only on an empty
option list. -/
theorem c5_counterexample :
    c5OneOption.options.length < 2 ∧
    (QTI_createMultipleChoiceSingleItem c5OneOption).choices.length = 1 := by
  decide

/-- C5, amended: the backend still emits a structurally valid item on
incomplete input, but the padding fires only on an empty option list
(then exactly two placeholder options are emitted); and whenever the
entry has no answer record, the single full-score condition binds to the
choice identifier of the first effective option instead of aborting. -/
theorem c5_robustness (q : IR) :
    (q.options = [] → (QTI_createMultipleChoiceSingleItem q).choices.length = 2) ∧
    (q.correctAnswer = none →
      ∃ o rest,
        (QTI_createMultipleChoiceSingleItem q).effOptions = o :: rest ∧
        (QTI_createMultipleChoiceSingleItem q).correctChoice = some (choiceIdent o) ∧
        (QTI_createMultipleChoiceSingleItem q).conds.filter (fun c => c.score = 100) =
          [⟨false, some (choiceIdent o), 100⟩]) := by
  constructor
  · intro ho
    by_cases ht : q.qtype = .TRUE_FALSE <;>
      simp [QTI_createMultipleChoiceSingleItem, ho, ht]
  · intro ha
    by_cases ho : q.options.isEmpty
    · by_cases ht : q.qtype = .TRUE_FALSE
      · refine ⟨⟨'T', "True".data, []⟩, [⟨'F', "False".data, []⟩], ?_, ?_, ?_⟩ <;>
          simp [QTI_createMultipleChoiceSingleItem, ho, ht, ha, ansTruthy,
            ansEqLetter, choiceIdent]
      · refine ⟨⟨'A', "Option A".data, []⟩, [⟨'B', "Option B".data, []⟩], ?_, ?_, ?_⟩ <;>
          simp [QTI_createMultipleChoiceSingleItem, ho, ht, ha, ansTruthy,
            ansEqLetter, choiceIdent]
    · obtain ⟨o, rest, hor⟩ : ∃ o rest, q.options = o :: rest := by
        cases hq : q.options with
        | nil => rw [hq] at ho; simp at ho
        | cons a r => exact ⟨a, r, rfl⟩
      have hfold : ∀ (l : List OptionEntry) (acc : Option Str),
          List.foldl (fun acc _ => acc) acc l = acc := by
        intro l
        induction l with
        | nil => intro acc; rfl
        | cons a r ih => intro acc; exact ih acc
      refine ⟨o, rest, ?_, ?_, ?_⟩ <;>
        simp [QTI_createMultipleChoiceSingleItem, ho, ha, hor, ansTruthy, hfold]

/-- Witness for the amended C5 at a concrete input. -/
theorem c5_robustness_witness :
    (QTI_createMultipleChoiceSingleItem c5Empty).choices.length = 2 ∧
    ∃ o rest,
      (QTI_createMultipleChoiceSingleItem c5Empty).effOptions = o :: rest ∧
      (QTI_createMultipleChoiceSingleItem c5Empty).correctChoice = some (choiceIdent o) ∧
      (QTI_createMultipleChoiceSingleItem c5Empty).conds.filter (fun c => c.score = 100) =
        [⟨false, some (choiceIdent o), 100⟩] :=
  ⟨(c5_robustness c5Empty).1 rfl, (c5_robustness c5Empty).2 rfl⟩

/-- The push-or-skip fold of the matching decoder computes a
filterMap. -/
theorem foldl_push_filterMap (f : Str → Option MatchPair) :
    ∀ (ts : List Str) (acc : List MatchPair),
      ts.foldl (fun acc p =>
        match f p with
        | some pr => acc ++ [pr]
        | none => acc) acc = acc ++ ts.filterMap f := by
  intro ts
  induction ts with
  | nil => intro acc; simp
  | cons t r ih =>
    intro acc
    cases h : f t <;> simp [List.foldl, h, ih, List.filterMap_cons]

/-- C7: the matching decoder splits the payload on comma/semicolon,
keeps exactly the pair tokens matched by the pair regex (each malformed
token is skipped without affecting the others, as the filterMap
invariance in the last conjunct states), and rejects the whole line
exactly when the resulting pair list is empty. -/
theorem c7_matching_line_decode :
    (∀ payload : Str,
      matchingAnswerOfPayload payload =
        (if ((splitCommaSemi payload).filterMap pairTokenMatch).isEmpty then none
         else some ((splitCommaSemi payload).filterMap pairTokenMatch))) ∧
    (∀ payload : Str,
      (matchingAnswerOfPayload payload = none ↔
        (splitCommaSemi payload).filterMap pairTokenMatch = [])) ∧
    (∀ (pre post : List Str) (t : Str), pairTokenMatch t = none →
      (pre ++ t :: post).filterMap pairTokenMatch =
        (pre ++ post).filterMap pairTokenMatch) := by
  have h1 : ∀ payload : Str,
      matchingAnswerOfPayload payload =
        (if ((splitCommaSemi payload).filterMap pairTokenMatch).isEmpty then none
         else some ((splitCommaSemi payload).filterMap pairTokenMatch)) := by
    intro payload
    have hf := foldl_push_filterMap pairTokenMatch (splitCommaSemi payload) []
    simp only [List.nil_append] at hf
    simp [matchingAnswerOfPayload, hf]
  refine ⟨h1, ?_, ?_⟩
  · intro payload
    rw [h1 payload]
    by_cases he : ((splitCommaSemi payload).filterMap pairTokenMatch).isEmpty = true
    · simp only [he, if_true]
      simp [List.isEmpty_iff.mp he]
    · have hne : (splitCommaSemi payload).filterMap pairTokenMatch ≠ [] :=
        fun hc => he (by simp [hc])
      simp only [he, Bool.false_eq_true, if_false]
      simp [hne]
  · intro pre post t ht
    simp [List.filterMap_append, List.filterMap_cons, ht]

/-- Witness for C7 at a concrete payload and a concrete malformed
token. -/
theorem c7_matching_line_decode_witness :
    (matchingAnswerOfPayload "A=3, junk, B-1".data =
      (if ((splitCommaSemi "A=3, junk, B-1".data).filterMap pairTokenMatch).isEmpty then none
       else some ((splitCommaSemi "A=3, junk, B-1".data).filterMap pairTokenMatch))) ∧
    pairTokenMatch "junk".data = none ∧
    (["A=3".data] ++ "junk".data :: ["B-1".data]).filterMap pairTokenMatch =
      (["A=3".data] ++ ["B-1".data]).filterMap pairTokenMatch :=
  ⟨c7_matching_line_decode.1 _, by decide,
    c7_matching_line_decode.2.2 ["A=3".data] ["B-1".data] "junk".data (by decide)⟩

/-- The answer-key fold never removes a warning. -/
theorem akFold_warns_mono (tm : Nat → Option QType) :
    ∀ (lines : List Str) (s : AKState) (x : Nat),
      x ∈ s.warns → x ∈ (lines.foldl (akStep tm) s).warns := by
  intro lines
  induction lines with
  | nil => intro s x hx; exact hx
  | cons t ls ih =>
    intro s x hx
    apply ih
    unfold akStep
    split
    · split
      · exact hx
      · exact hx
    · split
      · split
        · split
          · exact List.mem_append_left _ hx
          · exact hx
        · exact hx
      · exact hx

/-- Lookup in the answer map after the parse phase: the last decoded
line for n wins, and the initial map is only visible when no line for n
decoded. -/
theorem akFold_lookup (tm : Nat → Option QType) (n : Nat) :
    ∀ (lines : List Str) (a : Nat → Option AnswerData) (w : List Nat),
      (lines.foldl (akStep tm) ⟨true, a, w⟩).answers n =
        match (akHits tm lines n).getLast? with
        | some r => some r.2
        | none => a n := by
  intro lines
  induction lines with
  | nil => intro a w; simp [akHits]
  | cons t ls ih =>
    intro a w
    by_cases hte : t.isEmpty = true
    · have ht : t = [] := by
        cases t with
        | nil => rfl
        | cons c r => simp at hte
      subst ht
      simp only [List.foldl_cons]
      rw [show akStep tm ⟨true, a, w⟩ [] = ⟨true, a, w⟩ from by simp [akStep]]
      rw [ih a w]
      have hp : parseAnswerLine tm [] = none := rfl
      simp [akHits, hp]
    · cases hp : parseAnswerLine tm t with
      | none =>
        simp only [List.foldl_cons]
        rw [show akStep tm ⟨true, a, w⟩ t = ⟨true, a, w⟩ from by simp [akStep, hte, hp]]
        rw [ih a w]
        simp [akHits, hp]
      | some r =>
        obtain ⟨m, ans⟩ := r
        simp only [List.foldl_cons]
        rw [show akStep tm ⟨true, a, w⟩ t =
            ⟨true, fun k => if k = m then some ans else a k,
             if (a m).isSome then w ++ [m] else w⟩ from by simp [akStep, hte, hp]]
        rw [ih _ _]
        by_cases hmn : m = n
        · subst hmn
          have hhits : akHits tm (t :: ls) m = (m, ans) :: akHits tm ls m := by
            simp [akHits, hp]
          rw [hhits]
          cases hc : akHits tm ls m with
          | nil => simp
          | cons x xs =>
            rw [List.getLast?_cons_cons]
            cases hgl : (x :: xs).getLast? with
            | none => simp at hgl
            | some r2 => rfl
        · have hnm : ¬ n = m := fun h => hmn h.symm
          have hhits : akHits tm (t :: ls) n = akHits tm ls n := by
            simp [akHits, hp, hmn]
          rw [hhits]
          cases hc : akHits tm ls n with
          | nil => simp [hnm]
          | cons x xs =>
            cases hgl : (x :: xs).getLast? with
            | none => simp at hgl
            | some r2 => rfl

/-- The two stages of parseAnswerKey: the fold from the initial state
equals the parse-phase fold over the lines after the first header, on
the answer map and warning projections. -/
theorem akFold_phase_split (tm : Nat → Option QType) :
    ∀ (ts : List Str) (a : Nat → Option AnswerData) (w : List Nat),
      (ts.foldl (akStep tm) ⟨false, a, w⟩).answers =
        ((answerKeySection ts).foldl (akStep tm) ⟨true, a, w⟩).answers ∧
      (ts.foldl (akStep tm) ⟨false, a, w⟩).warns =
        ((answerKeySection ts).foldl (akStep tm) ⟨true, a, w⟩).warns := by
  intro ts
  induction ts with
  | nil => intro a w; exact ⟨rfl, rfl⟩
  | cons t ts ih =>
    intro a w
    by_cases hh : isAnswerKeyHeader t = true
    · have hsec : answerKeySection (t :: ts) = ts := by
        simp [answerKeySection, List.dropWhile, hh]
      have hstep : akStep tm ⟨false, a, w⟩ t = ⟨true, a, w⟩ := by
        simp [akStep, hh]
      rw [hsec]
      simp [List.foldl_cons, hstep]
    · have hsec : answerKeySection (t :: ts) = answerKeySection ts := by
        simp [answerKeySection, List.dropWhile, hh]
      have hstep : akStep tm ⟨false, a, w⟩ t = ⟨false, a, w⟩ := by
        simp [akStep, hh]
      rw [hsec]
      simp only [List.foldl_cons, hstep]
      exact ih a w

/-- A second decoded line for n (or a first one over an already-present
entry) puts n among the overwrite warnings. -/
theorem akFold_warned (tm : Nat → Option QType) (n : Nat) :
    ∀ (lines : List Str) (a : Nat → Option AnswerData) (w : List Nat),
      (2 ≤ (akHits tm lines n).length ∨
        ((a n).isSome = true ∧ 1 ≤ (akHits tm lines n).length)) →
      n ∈ (lines.foldl (akStep tm) ⟨true, a, w⟩).warns := by
  intro lines
  induction lines with
  | nil =>
    intro a w h
    simp [akHits] at h
  | cons t ls ih =>
    intro a w h
    by_cases hte : t.isEmpty = true
    · have ht : t = [] := by
        cases t with
        | nil => rfl
        | cons c r => simp at hte
      subst ht
      have hp : parseAnswerLine tm [] = none := rfl
      rw [show akHits tm ([] :: ls) n = akHits tm ls n from by simp [akHits, hp]] at h
      simp only [List.foldl_cons]
      rw [show akStep tm ⟨true, a, w⟩ [] = ⟨true, a, w⟩ from by simp [akStep]]
      exact ih a w h
    · cases hp : parseAnswerLine tm t with
      | none =>
        rw [show akHits tm (t :: ls) n = akHits tm ls n from by simp [akHits, hp]] at h
        simp only [List.foldl_cons]
        rw [show akStep tm ⟨true, a, w⟩ t = ⟨true, a, w⟩ from by simp [akStep, hte, hp]]
        exact ih a w h
      | some r =>
        obtain ⟨m, ans⟩ := r
        simp only [List.foldl_cons]
        rw [show akStep tm ⟨true, a, w⟩ t =
            ⟨true, fun k => if k = m then some ans else a k,
             if (a m).isSome then w ++ [m] else w⟩ from by simp [akStep, hte, hp]]
        by_cases hmn : m = n
        · subst hmn
          by_cases hsome : (a m).isSome = true
          · apply akFold_warns_mono
            simp [hsome]
          · apply ih
            right
            constructor
            · simp
            · have hhits : akHits tm (t :: ls) m = (m, ans) :: akHits tm ls m := by
                simp [akHits, hp]
              rw [hhits] at h
              rcases h with h | ⟨hs, _⟩
              · simp at h; omega
              · exact absurd hs hsome
        · apply ih
          have hnm : ¬ n = m := fun hh => hmn hh.symm
          rw [show akHits tm (t :: ls) n = akHits tm ls n from by
            simp [akHits, hp, hmn]] at h
          rcases h with h | ⟨hs, hl⟩
          · exact Or.inl h
          · exact Or.inr ⟨by simp [hnm, hs], hl⟩

/-- C6: when the answer-key section decodes two or more lines for the
same question number, the map produced by parseAnswerKey holds exactly
the decoding of the last such line (earlier decodings are overwritten),
and an overwrite warning for that number is emitted. -/
theorem c6_duplicate_last_wins (tm : Nat → Option QType) (elems : List Elem) (n : Nat)
    (h2 : 2 ≤ (akHits tm (answerKeySection (elems.map akTextOfElem)) n).length) :
    (parseAnswerKeyModel tm elems).answers n =
      ((akHits tm (answerKeySection (elems.map akTextOfElem)) n).getLast?).map
        (fun r => r.2) ∧
    n ∈ (parseAnswerKeyModel tm elems).warns := by
  have hsplit := akFold_phase_split tm (elems.map akTextOfElem) (fun _ => none) []
  unfold parseAnswerKeyModel
  constructor
  · rw [congrFun hsplit.1 n]
    rw [akFold_lookup tm n (answerKeySection (elems.map akTextOfElem)) (fun _ => none) []]
    cases hc : akHits tm (answerKeySection (elems.map akTextOfElem)) n with
    | nil => rw [hc] at h2; simp at h2
    | cons x xs =>
      cases hgl : (x :: xs).getLast? with
      | none => simp at hgl
      | some r => simp [hgl]
  · rw [hsplit.2]
    exact akFold_warned tm n (answerKeySection (elems.map akTextOfElem))
      (fun _ => none) [] (Or.inl h2)

/-- Witness for C6 at a concrete document: two decoded lines for
question 1, the second (letter B) winning, with a warning. -/
theorem c6_duplicate_last_wins_witness :
    (2 ≤ (akHits (fun k => if k = 1 then some .MULTIPLE_CHOICE_SINGLE else none)
        (answerKeySection (([tb "Answer Key", tb "1. A", tb "1. B"]).map akTextOfElem))
        1).length) ∧
    ((parseAnswerKeyModel (fun k => if k = 1 then some .MULTIPLE_CHOICE_SINGLE else none)
        [tb "Answer Key", tb "1. A", tb "1. B"]).answers 1 =
      ((akHits (fun k => if k = 1 then some .MULTIPLE_CHOICE_SINGLE else none)
          (answerKeySection (([tb "Answer Key", tb "1. A", tb "1. B"]).map akTextOfElem))
          1).getLast?).map (fun r => r.2) ∧
     1 ∈ (parseAnswerKeyModel (fun k => if k = 1 then some .MULTIPLE_CHOICE_SINGLE else none)
        [tb "Answer Key", tb "1. A", tb "1. B"]).warns) :=
  ⟨by decide,
    c6_duplicate_last_wins (fun k => if k = 1 then some .MULTIPLE_CHOICE_SINGLE else none)
      [tb "Answer Key", tb "1. A", tb "1. B"] 1 (by decide)⟩

/-- C8, counterexample: a document repeating the marker number 1 yields
two finalized drafts, both numbered 1: the draft count is the marker
count with multiplicity (2), not the distinct-marker count (1), and the
draft numbers are not pairwise distinct. -/
theorem c8_counterexample :
    (parseQuestionsText ["1. foo", "1. bar"]).questions.map (fun q => q.number) = [1, 1] ∧
    (parseQuestionsText ["1. foo", "1. bar"]).questions.length = 2 ∧
    (markerNumbersBeforeBoundary ["1. foo", "1. bar"]).dedup.length = 1 ∧
    ¬ ((parseQuestionsText ["1. foo", "1. bar"]).questions.map (fun q => q.number)).Nodup := by
  refine ⟨by rfl, by rfl, by decide, by decide⟩

/-- Counting invariant of the parseQuestions loop on text blocks: every
marker block before the boundary contributes exactly one finalized
draft, the live draft counting as one. -/
theorem pqLoop_count (g : Nat → Str) :
    ∀ (blocks : List String) (i : Nat) (st : PQState),
      (pqLoop g i (blocks.map tb) st).questions.length =
        st.questions.length + (if st.cur.isSome then 1 else 0) +
          (markerNumbersBeforeBoundary blocks).length := by
  intro blocks
  induction blocks with
  | nil =>
    intro i st
    cases hc : st.cur <;>
      simp [pqLoop, pqFinish, hc, markerNumbersBeforeBoundary]
  | cons b rest ih =>
    intro i st
    simp only [List.map_cons]
    conv_lhs => rw [pqLoop]
    by_cases hk : answerKeyQP (jsTrim b.data) = true
    · rw [pqStep_tb_header g i b st hk]
      have hm : markerNumbersBeforeBoundary (b :: rest) = [] := by
        simp [markerNumbersBeforeBoundary, List.takeWhile, hk]
      rw [hm]
      cases hc : st.cur <;> simp [pqFinish, hc]
    · have hk2 : answerKeyQP (jsTrim b.data) = false := by
        cases hb2 : answerKeyQP (jsTrim b.data)
        · rfl
        · exact absurd hb2 hk
      have hmb : markerNumbersBeforeBoundary (b :: rest) =
          (match questionStartMatch (jsTrim b.data) with
            | some r => [r.1]
            | none => []) ++ markerNumbersBeforeBoundary rest := by
        unfold markerNumbersBeforeBoundary
        simp only [List.map_cons, List.takeWhile_cons, hk2, Bool.not_false, if_true,
          List.filterMap_cons]
        cases hq0 : questionStartMatch (jsTrim b.data) <;> simp [hq0]
      by_cases he : (jsTrim b.data).isEmpty = true
      · have hqm : questionStartMatch (jsTrim b.data) = none := by
          have hnil : jsTrim b.data = [] := by
            cases h : jsTrim b.data with
            | nil => rfl
            | cons c r => rw [h] at he; simp at he
          rw [hnil]; rfl
        rw [show pqStep g i (tb b) st = some st from by
          unfold pqStep; rw [processElement_tb]; simp [he]]
        rw [ih (i + 1) st, hmb, hqm]
        simp
      · have he2 : (jsTrim b.data).isEmpty = false := by
          cases hb2 : (jsTrim b.data).isEmpty
          · rfl
          · exact absurd hb2 he
        cases hq : questionStartMatch (jsTrim b.data) with
        | some r =>
          obtain ⟨n, restRaw⟩ := r
          obtain ⟨st2, hs2, hlen, hcur⟩ : ∃ st2, pqStep g i (tb b) st = some st2 ∧
              st2.questions.length =
                st.questions.length + (if st.cur.isSome then 1 else 0) ∧
              st2.cur.isSome = true := by
            unfold pqStep
            rw [processElement_tb]
            simp only [he2, hk2, hq, Bool.false_and, Bool.false_eq_true, if_false]
            refine ⟨_, rfl, ?_, ?_⟩
            · cases hc : st.cur <;> simp [pqFinish, hc]
            · rfl
          rw [hs2, ih (i + 1) st2, hmb, hq, hlen, hcur]
          simp
          omega
        | none =>
          obtain ⟨st2, hs2, hlen, hcur⟩ : ∃ st2, pqStep g i (tb b) st = some st2 ∧
              st2.questions = st.questions ∧ st2.cur.isSome = st.cur.isSome := by
            unfold pqStep
            rw [processElement_tb]
            simp only [he2, hk2, hq, Bool.false_and, Bool.false_eq_true, if_false]
            cases hc : st.cur with
            | none =>
              simp only [hc]
              refine ⟨_, rfl, ?_, ?_⟩ <;> simp [hc]
            | some q =>
              simp only [hc]
              cases ho : optionMatch (jsTrim b.data) with
              | some r2 =>
                simp only [ho]
                refine ⟨_, rfl, ?_, ?_⟩ <;> simp [hc]
              | none =>
                simp only [ho]
                refine ⟨_, rfl, ?_, ?_⟩ <;> simp [hc]
          rw [hs2, ih (i + 1) st2, hmb, hq, hlen, hcur]
          simp

/-- C8, amended: the number of finalized drafts equals the number of
leading-integer marker blocks before the answer-key boundary counted
WITH multiplicity; a repeated marker number produces one draft per
occurrence and draft numbers need not be pairwise distinct. -/
theorem c8_draft_count (blocks : List String) :
    (parseQuestionsText blocks).questions.length =
      (markerNumbersBeforeBoundary blocks).length := by
  unfold parseQuestionsText parseQuestionsModel
  rw [pqLoop_count noIds blocks 0 ⟨[], none, [], [], 0, fun _ => none⟩]
  simp

theorem startsWithStr_iff (p l : Str) :
    startsWithStr p l = true ↔ ∃ v, l = p ++ v := by
  induction p generalizing l with
  | nil => simp [startsWithStr]
  | cons c p ih =>
    cases l with
    | nil =>
      simp only [startsWithStr]
      constructor
      · intro h; cases h
      · rintro ⟨v, hv⟩; cases hv
    | cons d r =>
      simp only [startsWithStr, Bool.and_eq_true, decide_eq_true_eq, ih]
      constructor
      · rintro ⟨rfl, v, rfl⟩; exact ⟨v, rfl⟩
      · rintro ⟨v, hv⟩
        injection hv with h1 h2
        exact ⟨h1.symm, v, h2⟩

theorem containsSub_iff (p l : Str) :
    containsSub p l = true ↔ ∃ u v, l = u ++ p ++ v := by
  induction l with
  | nil =>
    simp only [containsSub, startsWithStr_iff]
    constructor
    · rintro ⟨v, hv⟩; exact ⟨[], v, hv⟩
    · rintro ⟨u, v, huv⟩
      cases u with
      | nil => exact ⟨v, huv⟩
      | cons a b => cases huv
  | cons d r ih =>
    simp only [containsSub, Bool.or_eq_true, startsWithStr_iff, ih]
    constructor
    · rintro (⟨v, hv⟩ | ⟨u, v, huv⟩)
      · exact ⟨[], v, hv⟩
      · exact ⟨d :: u, v, by simp [huv]⟩
    · rintro ⟨u, v, huv⟩
      cases u with
      | nil => exact Or.inl ⟨v, huv⟩
      | cons a u2 =>
        injection huv with h1 h2
        exact Or.inr ⟨u2, v, h2⟩

theorem flatten_append (g : Nat → Str) (a b : SymText) :
    flatten g (a ++ b) = flatten g a ++ flatten g b := by
  induction a with
  | nil => rfl
  | cons t r ih => simp [flatten, ih]

theorem flattenRev_append (g : Nat → Str) (a b : SymText) :
    flattenRev g (a ++ b) = flattenRev g a ++ flattenRev g b := by
  induction a with
  | nil => rfl
  | cons t r ih => simp [flattenRev, ih]

theorem placeholder_cons (id : Str) :
    placeholder id = '[' :: ("IMG:".data ++ id ++ "]".data) := by
  simp [placeholder]

theorem reverse_flatten (g : Nat → Str) (st : SymText) :
    (flatten g st).reverse = flattenRev g st.reverse := by
  induction st with
  | nil => rfl
  | cons t r ih =>
    simp only [flatten, List.reverse_append, ih, List.reverse_cons, flattenRev_append]
    cases t <;> simp [flattenTok, flattenTokRev, flattenRev]

theorem flattenRev_reverse (g : Nat → Str) (st : SymText) :
    (flattenRev g st).reverse = flatten g st.reverse := by
  have h := reverse_flatten g st.reverse
  simp only [List.reverse_reverse] at h
  rw [← h, List.reverse_reverse]

theorem flatten_eq_nil (g : Nat → Str) (st : SymText) :
    flatten g st = [] ↔ st = [] := by
  cases st with
  | nil => simp [flatten]
  | cons t r =>
    simp only [flatten]
    constructor
    · intro h
      cases t with
      | c ch => simp [flattenTok] at h
      | ph k => rw [flattenTok, placeholder_cons] at h; simp at h
    · intro h; cases h

theorem dropWhile_flatten (g : Nat → Str) (p : Char → Bool) (hp : p '[' = false)
    (st : SymText) :
    (flatten g st).dropWhile p = flatten g (st.dropWhile (tokPred p)) := by
  induction st with
  | nil => rfl
  | cons t r ih =>
    cases t with
    | c ch =>
      simp only [flatten, flattenTok, List.cons_append, List.nil_append,
        List.dropWhile_cons, List.dropWhile]
      by_cases h : p ch = true
      · simp [h, tokPred, ih]
      · have h2 : p ch = false := by
          cases hc : p ch
          · rfl
          · exact absurd hc h
        simp [h2, tokPred, flatten, flattenTok]
    | ph k =>
      simp only [flatten, flattenTok, placeholder_cons, List.cons_append,
        List.dropWhile_cons, hp]
      simp [List.dropWhile, tokPred, flatten, flattenTok, placeholder_cons]

theorem takeWhile_flatten (g : Nat → Str) (p : Char → Bool) (hp : p '[' = false)
    (st : SymText) :
    (flatten g st).takeWhile p = flatten g (st.takeWhile (tokPred p)) := by
  induction st with
  | nil => rfl
  | cons t r ih =>
    cases t with
    | c ch =>
      simp only [flatten, flattenTok, List.cons_append, List.nil_append,
        List.takeWhile_cons]
      by_cases h : p ch = true
      · simp [h, tokPred, ih, List.takeWhile_cons, flatten, flattenTok]
      · have h2 : p ch = false := by
          cases hc : p ch
          · rfl
          · exact absurd hc h
        simp [h2, tokPred, flatten]
    | ph k =>
      simp only [flatten, flattenTok, placeholder_cons, List.cons_append,
        List.takeWhile_cons, hp]
      simp [tokPred, flatten]

theorem head?_flatten (g : Nat → Str) (st : SymText) :
    (flatten g st).head? = symHead st := by
  cases st with
  | nil => rfl
  | cons t r =>
    cases t with
    | c ch => simp [flatten, flattenTok, symHead]
    | ph k => simp [flatten, flattenTok, placeholder_cons, symHead]

theorem getLast?_flatten (g : Nat → Str) (st : SymText) :
    (flatten g st).getLast? = symLast st := by
  have h1 : (flatten g st).getLast? = (flatten g st).reverse.head? := by
    cases hc : (flatten g st).reverse with
    | nil =>
      have : flatten g st = [] := by
        have := congrArg List.reverse hc
        simpa using this
      simp [this]
    | cons a l =>
      have : flatten g st = (a :: l).reverse := by
        have := congrArg List.reverse hc
        simpa using this
      rw [this]
      simp [List.getLast?_reverse]
  rw [h1, reverse_flatten]
  cases hr : st.reverse with
  | nil =>
    have hst : st = [] := by
      have := congrArg List.reverse hr
      simpa using this
    simp [hst, flattenRev, symLast]
  | cons t r =>
    have hlast : st.getLast? = some t := by
      have : st = (t :: r).reverse := by
        have := congrArg List.reverse hr
        simpa using this
      rw [this]
      simp [List.getLast?_reverse]
    cases t with
    | c ch => simp [flattenRev, flattenTokRev, symLast, hlast]
    | ph k =>
      have hrev : (placeholder (g k)).reverse
          = ']' :: ((g k).reverse ++ "[IMG:".data.reverse) := by
        simp [placeholder]
      simp [flattenRev, flattenTokRev, symLast, hlast, hrev]

theorem dropWhile_flattenRev (g : Nat → Str) (p : Char → Bool) (hp : p ']' = false)
    (st : SymText) :
    (flattenRev g st).dropWhile p = flattenRev g (st.dropWhile (tokPred p)) := by
  induction st with
  | nil => rfl
  | cons t r ih =>
    cases t with
    | c ch =>
      simp only [flattenRev, flattenTokRev, List.cons_append, List.nil_append,
        List.dropWhile_cons]
      by_cases h : p ch = true
      · simp [h, tokPred, ih]
      · have h2 : p ch = false := by
          cases hc : p ch
          · rfl
          · exact absurd hc h
        simp [h2, tokPred, flattenRev, flattenTokRev]
    | ph k =>
      have hrev : (placeholder (g k)).reverse
          = ']' :: ((g k).reverse ++ "[IMG:".data.reverse) := by
        simp [placeholder]
      simp only [flattenRev, flattenTokRev, hrev, List.cons_append,
        List.dropWhile_cons, hp]
      simp [tokPred, flattenRev, flattenTokRev, hrev]

theorem jsTrim_flatten (g : Nat → Str) (st : SymText) :
    jsTrim (flatten g st) = flatten g (symTrim st) := by
  unfold jsTrim symTrim
  rw [dropWhile_flatten g isWs (by decide) st, reverse_flatten,
    dropWhile_flattenRev g isWs (by decide), flattenRev_reverse]

theorem stripCI_flatten (g : Nat → Str) (pat : Str)
    (hpat : ∀ c ∈ pat, c.toUpper ≠ '[') (st : SymText) :
    stripCI pat (flatten g st) = (symStripCI pat st).map (flatten g) := by
  induction pat generalizing st with
  | nil => simp [stripCI, symStripCI]
  | cons c p ih =>
    cases st with
    | nil => simp [flatten, stripCI, symStripCI]
    | cons t r =>
      cases t with
      | c d =>
        simp only [flatten, flattenTok, List.cons_append, List.nil_append,
          stripCI, symStripCI]
        by_cases h : c.toUpper = d.toUpper
        · simp [h, ih (fun x hx => hpat x (by simp [hx]))]
        · simp [h]
      | ph k =>
        have hc : c.toUpper ≠ '[' := hpat c (by simp)
        simp only [flatten, flattenTok, placeholder_cons, List.cons_append,
          stripCI, symStripCI]
        have : ('[' : Char).toUpper = '[' := by decide
        simp [this, hc]

theorem hasImgRun_append_left (a b : SymText) (h : hasImgRun a = true) :
    hasImgRun (a ++ b) = true := by
  induction a with
  | nil => simp [hasImgRun] at h
  | cons t r ih =>
    rw [hasImgRun] at h
    rcases Bool.or_eq_true_iff.mp h with h1 | h2
    · rcases r with _ | ⟨x, _ | ⟨y, _ | ⟨z, w⟩⟩⟩ <;>
        simp [startsImgRun] at h1 ⊢ <;>
        simp [List.cons_append, hasImgRun, startsImgRun, h1]
    · simp [List.cons_append, hasImgRun, ih h2]

theorem hasImgRun_append_right (a b : SymText) (h : hasImgRun b = true) :
    hasImgRun (a ++ b) = true := by
  induction a with
  | nil => simpa using h
  | cons t r ih => simp [List.cons_append, hasImgRun, ih]

/-- Appending two clean texts stays clean when the junction is blocked
on either side: no placeholder-opening run can straddle it. -/
theorem clean_append (a b : SymText)
    (ha : hasImgRun a = false) (hb : hasImgRun b = false)
    (hj : (match a.getLast? with
           | some t => blockTokL t = true
           | none => True) ∨
          (match b.head? with
           | some t => blockTokR t = true
           | none => True)) :
    hasImgRun (a ++ b) = false := by
  induction a with
  | nil => simpa using hb
  | cons t a2 ih =>
    rw [hasImgRun] at ha
    have ha1 : startsImgRun (t :: a2) = false := by
      cases hx : startsImgRun (t :: a2)
      · rfl
      · rw [hx] at ha; simp at ha
    have ha2 : hasImgRun a2 = false := by
      cases hx : hasImgRun a2
      · rfl
      · rw [hx] at ha; simp at ha
    have hj2 : (match a2.getLast? with
        | some u => blockTokL u = true
        | none => True) ∨
        (match b.head? with
         | some u => blockTokR u = true
         | none => True) := by
      rcases hj with hl | hr
      · cases ha2c : a2 with
        | nil => exact Or.inl (by simp)
        | cons u v =>
          left
          rw [ha2c] at hl
          rw [List.getLast?_cons_cons] at hl
          exact hl
      · exact Or.inr hr
    have htail : hasImgRun (a2 ++ b) = false := ih ha2 hj2
    rw [List.cons_append, hasImgRun, htail, Bool.or_false]
    rcases a2 with _ | ⟨x, _ | ⟨y, _ | ⟨z, w⟩⟩⟩
    · rcases hj with hl | hr
      · simp only [List.getLast?_singleton] at hl
        simp only [blockTokL, Bool.not_eq_true', Bool.or_eq_false_iff] at hl
        cases b with
        | nil => simp [startsImgRun]
        | cons b0 b1 =>
          cases b1 with
          | nil => simp [startsImgRun]
          | cons b2 b3 =>
            cases b3 with
            | nil => simp [startsImgRun]
            | cons b4 b5 => simp [startsImgRun, hl.1.1]
      · cases b with
        | nil => simp [startsImgRun]
        | cons b0 b1 =>
          simp only [List.head?_cons, Option.some.injEq] at hr
          simp only [blockTokR, Bool.not_eq_true', Bool.or_eq_false_iff] at hr
          cases b1 with
          | nil => simp [startsImgRun]
          | cons b2 b3 =>
            cases b3 with
            | nil => simp [startsImgRun]
            | cons b4 b5 => simp [startsImgRun, hr.1.1]
    · rcases hj with hl | hr
      · have hl2 : blockTokL x = true := by
          simpa [List.getLast?_cons_cons, List.getLast?_singleton] using hl
        simp only [blockTokL, Bool.not_eq_true', Bool.or_eq_false_iff] at hl2
        cases b with
        | nil => simp [startsImgRun]
        | cons b0 b1 =>
          cases b1 with
          | nil => simp [startsImgRun, hl2.1.2]
          | cons b2 b3 => simp [startsImgRun, hl2.1.2]
      · cases b with
        | nil => simp [startsImgRun]
        | cons b0 b1 =>
          simp only [List.head?_cons, Option.some.injEq] at hr
          simp only [blockTokR, Bool.not_eq_true', Bool.or_eq_false_iff] at hr
          cases b1 with
          | nil => simp [startsImgRun, hr.1.2]
          | cons b2 b3 => simp [startsImgRun, hr.1.2]
    · rcases hj with hl | hr
      · have hl2 : blockTokL y = true := by
          simpa [List.getLast?_cons_cons, List.getLast?_singleton] using hl
        simp only [blockTokL, Bool.not_eq_true', Bool.or_eq_false_iff] at hl2
        cases b with
        | nil => simp [startsImgRun]
        | cons b0 b1 => simp [startsImgRun, hl2.2]
      · cases b with
        | nil => simp [startsImgRun]
        | cons b0 b1 =>
          simp only [List.head?_cons, Option.some.injEq] at hr
          simp only [blockTokR, Bool.not_eq_true', Bool.or_eq_false_iff] at hr
          simp [startsImgRun, hr.2]
    · have : startsImgRun (t :: x :: y :: z :: (w ++ b)) = startsImgRun (t :: x :: y :: z :: w) := by
        simp [startsImgRun]
      rw [List.cons_append, List.cons_append, List.cons_append]
      rw [this]
      exact ha1

theorem startsImgRun_erase (st : SymText) :
    startsImgRun (erasePh st) = startsImgRun st := by
  rcases st with _ | ⟨t1, _ | ⟨t2, _ | ⟨t3, _ | ⟨t4, r⟩⟩⟩⟩ <;>
    try rfl
  simp only [erasePh, List.map_cons, startsImgRun]
  cases t1 <;> cases t2 <;> cases t3 <;> cases t4 <;> rfl

theorem hasImgRun_erase (st : SymText) :
    hasImgRun (erasePh st) = hasImgRun st := by
  induction st with
  | nil => rfl
  | cons t r ih =>
    rw [show hasImgRun (erasePh (t :: r)) =
        (startsImgRun (erasePh (t :: r)) || hasImgRun (erasePh r)) from by
      cases t <;> rfl]
    rw [startsImgRun_erase, ih, hasImgRun]

/-- Concrete characters of a literal-character token list. -/
theorem flatten_map_c (g : Nat → Str) (s : Str) :
    flatten g (s.map .c) = s := by
  induction s with
  | nil => rfl
  | cons c r ih => simp [flatten, flattenTok, ih]

/-- processParts is the flattening of symProcessParts. -/
theorem processParts_flatten (g : Nat → Str) (parts : List Part) (ctr : Nat) :
    processParts g parts ctr =
      ((flatten g (symProcessParts parts ctr).1),
       (symProcessParts parts ctr).2.1.map g,
       (symProcessParts parts ctr).2.2) := by
  induction parts generalizing ctr with
  | nil => rfl
  | cons p r ih =>
    cases p with
    | txt s =>
      simp only [processParts, symProcessParts, ih, flatten_append, flatten_map_c]
    | img =>
      simp only [processParts, symProcessParts, ih, flatten, flattenTok, List.map_cons]

theorem erase_symProcessParts (parts : List Part) (ctr : Nat) :
    erasePh (symProcessParts parts ctr).1 = partsView parts := by
  induction parts generalizing ctr with
  | nil => rfl
  | cons p r ih =>
    cases p with
    | txt s =>
      simp only [symProcessParts, partsView, ← ih ctr]
      simp only [erasePh, List.map_append]
      congr 1
      induction s with
      | nil => rfl
      | cons c cr ihc => simp_all
    | img =>
      simp only [symProcessParts, partsView, ← ih (ctr + 1)]
      rfl

theorem hasImgRun_symProcessParts (parts : List Part) (ctr : Nat) :
    hasImgRun (symProcessParts parts ctr).1 = hasImgRun (partsView parts) := by
  rw [← hasImgRun_erase, erase_symProcessParts]

theorem isEmpty_flatten (g : Nat → Str) (st : SymText) :
    (flatten g st).isEmpty = st.isEmpty := by
  cases st with
  | nil => rfl
  | cons t r =>
    have hne : flatten g (t :: r) ≠ [] := by
      rw [Ne, flatten_eq_nil]
      simp
    cases hf : flatten g (t :: r) with
    | nil => exact absurd hf hne
    | cons a l => simp

theorem clean_suffix {pre suf : SymText} (h : hasImgRun (pre ++ suf) = false) :
    hasImgRun suf = false := by
  cases hx : hasImgRun suf
  · rfl
  · rw [hasImgRun_append_right pre suf hx] at h
    cases h

theorem clean_prefix {pre suf : SymText} (h : hasImgRun (pre ++ suf) = false) :
    hasImgRun pre = false := by
  cases hx : hasImgRun pre
  · rfl
  · rw [hasImgRun_append_left pre suf hx] at h
    cases h

theorem clean_dropWhile (p : STok → Bool) {st : SymText}
    (h : hasImgRun st = false) : hasImgRun (st.dropWhile p) = false := by
  have hsplit : st.takeWhile p ++ st.dropWhile p = st :=
    List.takeWhile_append_dropWhile p st
  rw [← hsplit] at h
  exact clean_suffix h

theorem clean_symTrim {st : SymText} (h : hasImgRun st = false) :
    hasImgRun (symTrim st) = false := by
  unfold symTrim
  have h1 : hasImgRun (st.dropWhile (tokPred isWs)) = false := clean_dropWhile _ h
  set u := st.dropWhile (tokPred isWs) with hu
  have hsplit : (u.reverse.dropWhile (tokPred isWs)).reverse ++
      (u.reverse.takeWhile (tokPred isWs)).reverse = u := by
    have h0 := List.takeWhile_append_dropWhile (tokPred isWs) u.reverse
    have h2 := congrArg List.reverse h0
    rw [List.reverse_append, List.reverse_reverse] at h2
    exact h2
  rw [← hsplit] at h1
  exact clean_prefix h1

theorem flatten_takeWhile_literal (g : Nat → Str) (p : Char → Bool) (st : SymText) :
    flatten g (st.takeWhile (tokPred p)) = literalChars (st.takeWhile (tokPred p)) := by
  induction st with
  | nil => rfl
  | cons t r ih =>
    cases t with
    | c ch =>
      by_cases h : p ch = true
      · simp [List.takeWhile_cons, tokPred, h, flatten, flattenTok, literalChars, ih]
      · have h2 : p ch = false := by
          cases hc : p ch
          · rfl
          · exact absurd hc h
        simp [List.takeWhile_cons, tokPred, h2, flatten, literalChars]
    | ph k => simp [List.takeWhile_cons, tokPred, flatten, literalChars]

theorem answerKeyQP_flatten (g : Nat → Str) (st : SymText) :
    answerKeyQP (flatten g st) = symAnswerKeyQP st := by
  unfold answerKeyQP symAnswerKeyQP
  rw [dropWhile_flatten g isWs (by decide),
    stripCI_flatten g "ANSWER".data (by decide)]
  cases h1 : symStripCI "ANSWER".data (st.dropWhile (tokPred isWs)) with
  | none => rfl
  | some l2 =>
    simp only [Option.map_some']
    rw [takeWhile_flatten g isWs (by decide), isEmpty_flatten]
    by_cases hws : (l2.takeWhile (tokPred isWs)).isEmpty = true
    · simp [hws]
    · have hws2 : (l2.takeWhile (tokPred isWs)).isEmpty = false := by
        cases hx : (l2.takeWhile (tokPred isWs)).isEmpty
        · rfl
        · exact absurd hx hws
      simp only [hws2, Bool.false_eq_true, if_false]
      rw [dropWhile_flatten g isWs (by decide),
        stripCI_flatten g "KEY".data (by decide)]
      cases h2 : symStripCI "KEY".data (l2.dropWhile (tokPred isWs)) with
      | none => rfl
      | some l4 =>
        simp only [Option.map_some']
        rw [dropWhile_flatten g isWs (by decide)]
        cases hl5 : l4.dropWhile (tokPred isWs) with
        | nil =>
          simp [flatten]
        | cons t r =>
          cases t with
          | c ch =>
            by_cases hch : ch = ':'
            · subst hch
              simp only [flatten, flattenTok, List.cons_append, List.nil_append]
              rw [dropWhile_flatten g isWs (by decide), isEmpty_flatten]
            · simp only [flatten, flattenTok, List.cons_append, List.nil_append]
              have hm1 : (match ch :: flatten g r with
                  | ':' :: r2 => r2
                  | _ => ch :: flatten g r) = ch :: flatten g r := by
                cases hcq : ch <;> simp_all
              have hm2 : (match (STok.c ch :: r : SymText) with
                  | .c ':' :: r2 => r2
                  | _ => STok.c ch :: r) = STok.c ch :: r := by
                cases hcq : ch <;> simp_all
              rw [hm1, hm2]
              rw [show (ch :: flatten g r) = flatten g (.c ch :: r) from rfl]
              rw [dropWhile_flatten g isWs (by decide), isEmpty_flatten]
          | ph k =>
            simp [flatten, flattenTok, placeholder_cons, List.dropWhile_cons,
              tokPred, isWs]

theorem questionStartMatch_flatten (g : Nat → Str) (st : SymText) :
    questionStartMatch (flatten g st) =
      (symQuestionStartMatch st).map (fun r => (r.1, flatten g r.2)) := by
  unfold questionStartMatch symQuestionStartMatch
  simp only []
  rw [dropWhile_flatten g isWs (by decide),
    takeWhile_flatten g isDigit (by decide), isEmpty_flatten]
  by_cases hds : ((st.dropWhile (tokPred isWs)).takeWhile (tokPred isDigit)).isEmpty = true
  · simp [hds]
  · have hds2 : ((st.dropWhile (tokPred isWs)).takeWhile (tokPred isDigit)).isEmpty
        = false := by
      cases hx : ((st.dropWhile (tokPred isWs)).takeWhile (tokPred isDigit)).isEmpty
      · rfl
      · exact absurd hx hds
    simp only [hds2, Bool.false_eq_true, if_false]
    rw [dropWhile_flatten g isDigit (by decide), dropWhile_flatten g isWs (by decide)]
    cases hl2 : ((st.dropWhile (tokPred isWs)).dropWhile (tokPred isDigit)).dropWhile
        (tokPred isWs) with
    | nil => simp [flatten]
    | cons t l3 =>
      cases t with
      | c c0 =>
        simp only [flatten, flattenTok, List.cons_append, List.nil_append]
        by_cases hsep : (c0 = '.' || c0 = ')' || c0 = '-') = true
        · simp only [hsep, if_true]
          rw [takeWhile_flatten g isWs (by decide), isEmpty_flatten]
          by_cases hws : (l3.takeWhile (tokPred isWs)).isEmpty = true
          · simp [hws]
          · have hws2 : (l3.takeWhile (tokPred isWs)).isEmpty = false := by
              cases hx : (l3.takeWhile (tokPred isWs)).isEmpty
              · rfl
              · exact absurd hx hws
            simp only [hws2, Bool.false_eq_true, if_false]
            rw [dropWhile_flatten g isWs (by decide), flatten_takeWhile_literal]
            simp
        · have hsep2 : (c0 = '.' || c0 = ')' || c0 = '-') = false := by
            cases hx : (c0 = '.' || c0 = ')' || c0 = '-')
            · rfl
            · exact absurd hx hsep
          simp [hsep2]
      | ph k =>
        simp [flatten, flattenTok, placeholder_cons]

theorem optionMatch_flatten (g : Nat → Str) (st : SymText) :
    optionMatch (flatten g st) =
      (symOptionMatch st).map (fun r => (r.1, flatten g r.2)) := by
  unfold optionMatch symOptionMatch
  rw [dropWhile_flatten g isWs (by decide)]
  cases h1 : st.dropWhile (tokPred isWs) with
  | nil => simp [flatten]
  | cons t l2 =>
    cases t with
    | ph k =>
      simp [flatten, flattenTok, placeholder_cons]
      intro h
      exact absurd h (by decide)
    | c c0 =>
      simp only [flatten, flattenTok, List.cons_append, List.nil_append]
      by_cases hlet : isAsciiLetter c0 = true
      · simp only [hlet, if_true]
        rw [dropWhile_flatten g isWs (by decide)]
        cases h2 : l2.dropWhile (tokPred isWs) with
        | nil => simp [flatten]
        | cons u l3 =>
          cases u with
          | ph k => simp [flatten, flattenTok, placeholder_cons]
          | c d0 =>
            simp only [flatten, flattenTok, List.cons_append, List.nil_append]
            by_cases hsep : (d0 = '.' || d0 = ')') = true
            · simp only [hsep, if_true]
              rw [takeWhile_flatten g isWs (by decide), isEmpty_flatten]
              by_cases hws : (l3.takeWhile (tokPred isWs)).isEmpty = true
              · simp [hws]
              · have hws2 : (l3.takeWhile (tokPred isWs)).isEmpty = false := by
                  cases hx : (l3.takeWhile (tokPred isWs)).isEmpty
                  · rfl
                  · exact absurd hx hws
                simp only [hws2, Bool.false_eq_true, if_false]
                rw [dropWhile_flatten g isWs (by decide)]
                simp
            · have hsep2 : (d0 = '.' || d0 = ')') = false := by
                cases hx : (d0 = '.' || d0 = ')')
                · rfl
                · exact absurd hx hsep
              simp [hsep2]
      · have hlet2 : isAsciiLetter c0 = false := by
          cases hx : isAsciiLetter c0
          · rfl
          · exact absurd hx hlet
        simp only [hlet2, Bool.false_eq_true, if_false]
        by_cases hpar : c0 = '('
        · subst hpar
          simp only [if_pos rfl]
          rw [dropWhile_flatten g isWs (by decide)]
          cases h2 : l2.dropWhile (tokPred isWs) with
          | nil => simp [flatten]
          | cons u l3 =>
            cases u with
            | ph k =>
              simp [flatten, flattenTok, placeholder_cons]
              intro h
              exact absurd h (by decide)
            | c d0 =>
              simp only [flatten, flattenTok, List.cons_append, List.nil_append]
              by_cases hld : isAsciiLetter d0 = true
              · simp only [hld, if_true]
                rw [dropWhile_flatten g isWs (by decide)]
                cases h3 : l3.dropWhile (tokPred isWs) with
                | nil => simp [flatten]
                | cons v l4 =>
                  cases v with
                  | ph k => simp [flatten, flattenTok, placeholder_cons]
                  | c e0 =>
                    simp only [flatten, flattenTok, List.cons_append,
                      List.nil_append]
                    by_cases hrp : e0 = ')'
                    · subst hrp
                      simp only [if_pos rfl]
                      rw [takeWhile_flatten g isWs (by decide), isEmpty_flatten]
                      by_cases hws : (l4.takeWhile (tokPred isWs)).isEmpty = true
                      · simp [hws]
                      · have hws2 : (l4.takeWhile (tokPred isWs)).isEmpty
                            = false := by
                          cases hx : (l4.takeWhile (tokPred isWs)).isEmpty
                          · rfl
                          · exact absurd hx hws
                        simp only [hws2, Bool.false_eq_true, if_false]
                        rw [dropWhile_flatten g isWs (by decide)]
                        simp
                    · simp only [if_neg hrp, Option.map_none']
                      split
                      · rename_i heq
                        exact absurd (List.head_eq_of_cons_eq heq.symm).symm hrp
                      · rfl
              · have hld2 : isAsciiLetter d0 = false := by
                  cases hx : isAsciiLetter d0
                  · rfl
                  · exact absurd hx hld
                simp [hld2]
        · simp [hpar]

theorem startsWith_flatten (g : Nat → Str) (w : Str) (hw : '[' ∉ w) (st : SymText) :
    startsWithStr w (flatten g st) = symStartsWith w st := by
  induction w generalizing st with
  | nil => cases st <;> rfl
  | cons c w2 ih =>
    cases st with
    | nil => rfl
    | cons t r =>
      cases t with
      | c d =>
        simp only [flatten, flattenTok, List.cons_append, List.nil_append,
          startsWithStr, symStartsWith]
        by_cases hcd : c = d
        · subst hcd
          simp [ih (fun hm => hw (List.mem_cons_of_mem _ hm))]
        · simp [hcd]
      | ph k =>
        rw [flatten, flattenTok, placeholder_cons]
        simp only [List.cons_append, startsWithStr, symStartsWith]
        have hc : ¬ c = '[' := fun hc => hw (hc ▸ List.mem_cons_self c w2)
        simp [hc]

theorem flatten_drop_of_symStartsWith (g : Nat → Str) (w : Str) (st : SymText)
    (h : symStartsWith w st = true) :
    (flatten g st).drop w.length = flatten g (st.drop w.length) := by
  induction w generalizing st with
  | nil => simp
  | cons c w2 ih =>
    cases st with
    | nil => simp [symStartsWith] at h
    | cons t r =>
      cases t with
      | c d =>
        simp only [symStartsWith, Bool.and_eq_true] at h
        simp only [flatten, flattenTok, List.cons_append, List.nil_append,
          List.length_cons, List.drop_succ_cons]
        exact ih r h.2
      | ph k => simp [symStartsWith] at h

theorem containsSub_append_skip (p t : Str) :
    ∀ s : Str,
      (∀ j, j < s.length → startsWithStr p (s.drop j ++ t) = false) →
      containsSub p (s ++ t) = containsSub p t := by
  intro s
  induction s with
  | nil => intro h; rfl
  | cons c s2 ih =>
    intro h
    have h0 := h 0 (by simp)
    simp only [List.drop_zero, List.cons_append] at h0
    have hstep : containsSub p (c :: (s2 ++ t)) =
        (startsWithStr p (c :: (s2 ++ t)) || containsSub p (s2 ++ t)) := rfl
    rw [List.cons_append, hstep, h0, Bool.false_or]
    refine ih (fun j hj => ?_)
    have := h (j + 1) (by simp only [List.length_cons]; omega)
    simpa using this

theorem findBounded_cons_nomatch (w t : Str) (prev : Option Char) (c : Char)
    (h : startsWithStr w (c :: t) = false) :
    findBounded w prev (c :: t) = findBounded w (some c) t := by
  simp [findBounded, h]

theorem findBounded_append_skip (w t : Str) :
    ∀ (s : Str) (prev : Option Char) (z : Char),
      s.getLast? = some z →
      (∀ j, j < s.length → startsWithStr w (s.drop j ++ t) = false) →
      findBounded w prev (s ++ t) = findBounded w (some z) t := by
  intro s
  induction s with
  | nil => intro prev z hz h; simp at hz
  | cons c s2 ih =>
    intro prev z hz h
    have h0 := h 0 (by simp)
    simp only [List.drop_zero, List.cons_append] at h0
    rw [List.cons_append, findBounded_cons_nomatch w (s2 ++ t) prev c h0]
    cases s2 with
    | nil =>
      simp only [List.getLast?_singleton, Option.some.injEq] at hz
      subst hz
      simp
    | cons x xs =>
      rw [List.getLast?_cons_cons] at hz
      exact ih (some c) z hz (fun j hj => by
        have := h (j + 1) (by simp only [List.length_cons] at hj ⊢; omega)
        simpa using this)

theorem placeholder_chars (A : Char → Bool) (id : Str)
    (hid : ∀ c ∈ id, A c = true) :
    ∀ c ∈ placeholder id, phChar A c = true := by
  intro c hc
  simp only [placeholder, List.mem_append] at hc
  rcases hc with (hc | hc) | hc
  · fin_cases hc <;> rfl
  · simp [phChar, hid c hc]
  · fin_cases hc <;> rfl

theorem placeholder_getLast (id : Str) : (placeholder id).getLast? = some ']' := by
  rw [placeholder, show "]".data = [']'] from rfl]
  exact List.getLast?_concat _

theorem placeholder_no_match (A : Char → Bool) (w : Str) (hw : KwSafe A w)
    (id : Str) (hid : ∀ c ∈ id, A c = true) (t : Str) :
    ∀ j, j < (placeholder id).length →
      startsWithStr w ((placeholder id).drop j ++ t) = false := by
  intro j hj
  cases hs : startsWithStr w ((placeholder id).drop j ++ t) with
  | false => rfl
  | true =>
    exfalso
    obtain ⟨v, hv⟩ := (startsWithStr_iff _ _).mp hs
    by_cases hlen : w.length ≤ ((placeholder id).drop j).length
    · have hw2 : w = ((placeholder id).drop j).take w.length := by
        have h1 : (w ++ v).take w.length = w := List.take_left w v
        have h2 : ((placeholder id).drop j ++ t).take w.length
            = ((placeholder id).drop j).take w.length :=
          List.take_append_of_le_length hlen
        rw [hv, h1] at h2
        exact h2
      obtain ⟨c, hcw, hcf⟩ := hw.out
      have hcm : c ∈ (placeholder id).drop j := by
        rw [hw2] at hcw
        exact List.take_subset _ _ hcw
      have := placeholder_chars A id hid c (List.drop_subset _ _ hcm)
      rw [this] at hcf
      cases hcf
    · push_neg at hlen
      have hdz : (placeholder id).drop j = w.take ((placeholder id).drop j).length := by
        have h1 : ((placeholder id).drop j ++ t).take ((placeholder id).drop j).length
            = (placeholder id).drop j := List.take_left _ t
        conv_lhs => rw [← h1, hv]
        rw [List.take_append_of_le_length (le_of_lt hlen)]
      have hmem : ']' ∈ (placeholder id).drop j := by
        have hjlen : j ≤ ("[IMG:".data ++ id).length := by
          have h5 : (placeholder id).length = ("[IMG:".data ++ id).length + 1 := by
            simp [placeholder]
          omega
        have hsplit : (placeholder id).drop j = ("[IMG:".data ++ id).drop j ++ "]".data := by
          rw [placeholder, List.drop_append_of_le_length hjlen]
        rw [hsplit]
        simp
      rw [hdz] at hmem
      exact hw.norb (List.take_subset _ _ hmem)

theorem containsSub_flatten (g : Nat → Str) (A : Char → Bool)
    (hg : ∀ k, ∀ c ∈ g k, A c = true) (w : Str) (hw : KwSafe A w) (st : SymText) :
    containsSub w (flatten g st) = symContainsSub w st := by
  induction st with
  | nil =>
    cases w with
    | nil => rfl
    | cons c w2 => rfl
  | cons tk r ih =>
    cases tk with
    | c d =>
      have hfl : flatten g (.c d :: r) = d :: flatten g r := by simp [flatten, flattenTok]
      have hstep : containsSub w (d :: flatten g r) =
          (startsWithStr w (d :: flatten g r) || containsSub w (flatten g r)) := rfl
      rw [hfl, hstep, ih]
      have hsw := startsWith_flatten g w hw.nolb (.c d :: r)
      rw [hfl] at hsw
      rw [hsw]
      rfl
    | ph k =>
      have hfl : flatten g (.ph k :: r) = placeholder (g k) ++ flatten g r := rfl
      rw [hfl, containsSub_append_skip w (flatten g r) (placeholder (g k))
        (placeholder_no_match A w hw (g k) (hg k) (flatten g r))]
      exact ih

theorem findBounded_flatten (g : Nat → Str) (A : Char → Bool)
    (hg : ∀ k, ∀ c ∈ g k, A c = true) (w : Str) (hw : KwSafe A w) :
    ∀ (st : SymText) (prev : Option Char),
      findBounded w prev (flatten g st) =
        (symFindBounded w prev st).map (flatten g) := by
  intro st
  induction st with
  | nil => intro prev; rfl
  | cons tk r ih =>
    intro prev
    cases tk with
    | ph k =>
      have hfl : flatten g (.ph k :: r) = placeholder (g k) ++ flatten g r := rfl
      rw [hfl, findBounded_append_skip w (flatten g r) (placeholder (g k)) prev ']'
        (placeholder_getLast (g k))
        (placeholder_no_match A w hw (g k) (hg k) (flatten g r))]
      exact ih (some ']')
    | c c0 =>
      have hfl : flatten g (.c c0 :: r) = c0 :: flatten g r := by simp [flatten, flattenTok]
      have hsw := startsWith_flatten g w hw.nolb (.c c0 :: r)
      rw [hfl] at hsw
      rw [hfl]
      simp only [findBounded, symFindBounded]
      rw [hsw]
      by_cases hb : ((match prev with
          | none => true
          | some p => !isWordChar p) && symStartsWith w (.c c0 :: r)) = true
      · simp only [hb, if_true]
        have hsw2 : symStartsWith w (.c c0 :: r) = true := by
          rcases Bool.and_eq_true_iff.mp hb with ⟨h1, h2⟩
          exact h2
        have hdrop := flatten_drop_of_symStartsWith g w (.c c0 :: r) hsw2
        rw [hfl] at hdrop
        rw [hdrop]
        cases hsa : (STok.c c0 :: r : SymText).drop w.length with
        | nil => simp [flatten, symHead]
        | cons u sr =>
          cases u with
          | c d =>
            simp only [flatten, flattenTok, List.cons_append, List.nil_append, symHead]
            by_cases hwd : isWordChar d = true
            · simp only [hwd, if_true]
              exact ih (some c0)
            · have hwd2 : isWordChar d = false := by
                cases hx : isWordChar d
                · rfl
                · exact absurd hx hwd
              simp [hwd2, flatten, flattenTok]
          | ph m =>
            simp only [flatten, flattenTok, placeholder_cons, List.cons_append, symHead]
            have hlb : isWordChar '[' = false := by decide
            simp [hlb, flatten, flattenTok, placeholder_cons]
      · simp only [Bool.not_eq_true] at hb
        simp only [hb, Bool.false_eq_true, if_false]
        exact ih (some c0)

theorem hexLower_cases (d : Char) (h : isHexLower d = true) :
    d ∈ "0123456789abcdef".data := by
  have hv : (48 ≤ d.toNat ∧ d.toNat ≤ 57) ∨ (97 ≤ d.toNat ∧ d.toNat ≤ 102) := by
    simp only [isHexLower, isDigit, Bool.or_eq_true, Bool.and_eq_true,
      decide_eq_true_eq, Char.le_def] at h
    rcases h with ⟨h1, h2⟩ | ⟨h1, h2⟩
    · exact Or.inl ⟨h1, h2⟩
    · exact Or.inr ⟨h1, h2⟩
  have hd : d = Char.ofNat d.toNat := (Char.ofNat_toNat d).symm
  have h16 : d.toNat = 48 ∨ d.toNat = 49 ∨ d.toNat = 50 ∨ d.toNat = 51 ∨
      d.toNat = 52 ∨ d.toNat = 53 ∨ d.toNat = 54 ∨ d.toNat = 55 ∨ d.toNat = 56 ∨
      d.toNat = 57 ∨ d.toNat = 97 ∨ d.toNat = 98 ∨ d.toNat = 99 ∨ d.toNat = 100 ∨
      d.toNat = 101 ∨ d.toNat = 102 := by omega
  rcases h16 with h0|h0|h0|h0|h0|h0|h0|h0|h0|h0|h0|h0|h0|h0|h0|h0 <;>
    rw [h0] at hd <;> rw [hd] <;> decide

theorem toUpper_hexAny (d : Char) (h : isHexLower d = true) :
    isHexAny d.toUpper = true := by
  have hm := hexLower_cases d h
  fin_cases hm <;> decide

theorem placeholder_map_toUpper (a : Str) :
    (placeholder a).map Char.toUpper = placeholder (a.map Char.toUpper) := by
  simp only [placeholder, List.map_append]
  rw [show "[IMG:".data.map Char.toUpper = "[IMG:".data from by decide,
    show "]".data.map Char.toUpper = "]".data from by decide]

theorem flatten_map_toUpper (g : Nat → Str) (st : SymText) :
    (flatten g st).map Char.toUpper = flatten (upperIds g) (symUpper st) := by
  induction st with
  | nil => rfl
  | cons t r ih =>
    cases t with
    | c ch => simp [flatten, flattenTok, symUpper, ih, upperIds]
    | ph k =>
      simp only [flatten, flattenTok, symUpper, List.map_cons, List.map_append, ih]
      rw [placeholder_map_toUpper]
      rfl

theorem upperIds_hex (g : Nat → Str) (hg : IdsOk g) :
    ∀ k, ∀ c ∈ upperIds g k, isHexAny c = true := by
  intro k c hc
  simp only [upperIds, List.mem_map] at hc
  obtain ⟨d, hd, rfl⟩ := hc
  exact toUpper_hexAny d (hg.hex k d hd)

theorem isSome_map_flatten (g : Nat → Str) (o : Option SymText) :
    (o.map (flatten g)).isSome = o.isSome := by
  cases o <;> rfl

theorem tfKeyword_flatten (g : Nat → Str) (hg : IdsOk g) (st : SymText) :
    tfKeyword (flatten g st) = symTfKeyword st := by
  have hu := flatten_map_toUpper g st
  have hA := upperIds_hex g hg
  have h1 := findBounded_flatten (upperIds g) isHexAny hA "TRUE".data
    ⟨by decide, by decide, by decide⟩ (symUpper st) none
  have h2 := containsSub_flatten (upperIds g) isHexAny hA "TRUE/FALSE".data
    ⟨by decide, by decide, by decide⟩ (symUpper st)
  simp only [tfKeyword, symTfKeyword, trueFalseRegex, symTrueFalseRegex, hu, h1, h2]
  cases hf : symFindBounded "TRUE".data none (symUpper st) with
  | none => simp
  | some rest =>
    simp only [Option.map_some']
    rw [findBounded_flatten (upperIds g) isHexAny hA "FALSE".data
      ⟨by decide, by decide, by decide⟩ rest (some 'E')]
    rw [isSome_map_flatten]

theorem matchingKeyword_flatten (g : Nat → Str) (hg : IdsOk g) (st : SymText) :
    matchingKeyword (flatten g st) = symMatchingKeyword st := by
  have hu := flatten_map_toUpper g st
  have hA := upperIds_hex g hg
  have h1 := findBounded_flatten (upperIds g) isHexAny hA "MATCHING".data
    ⟨by decide, by decide, by decide⟩ (symUpper st) none
  simp only [matchingKeyword, symMatchingKeyword, hu, h1, isSome_map_flatten]
  congr 1
  rw [dropWhile_flatten g isWs (by decide),
    stripCI_flatten g "MATCH".data (by decide)]
  cases h3 : symStripCI "MATCH".data (st.dropWhile (tokPred isWs)) with
  | none => rfl
  | some l2 =>
    simp only [Option.map_some']
    cases l2 with
    | nil => simp [flatten, symHead]
    | cons t r =>
      cases t with
      | c d => simp [flatten, flattenTok, symHead]
      | ph k =>
        simp only [flatten, flattenTok, placeholder_cons, List.cons_append, symHead]

theorem orderingKeyword_flatten (g : Nat → Str) (hg : IdsOk g) (st : SymText) :
    orderingKeyword (flatten g st) = symOrderingKeyword st := by
  have hu := flatten_map_toUpper g st
  have hA := upperIds_hex g hg
  have h1 := findBounded_flatten (upperIds g) isHexAny hA "ORDERING".data
    ⟨by decide, by decide, by decide⟩ (symUpper st) none
  have h2 := findBounded_flatten (upperIds g) isHexAny hA "ORDER".data
    ⟨by decide, by decide, by decide⟩ (symUpper st) none
  have h3 := findBounded_flatten (upperIds g) isHexAny hA "SEQUENCE".data
    ⟨by decide, by decide, by decide⟩ (symUpper st) none
  simp only [orderingKeyword, symOrderingKeyword, hu, h1, h2, h3, isSome_map_flatten]

theorem underscoreKeyword_flatten (g : Nat → Str) (hg : IdsOk g) (st : SymText) :
    underscoreKeyword (flatten g st) = symUnderscoreKeyword st := by
  simp only [underscoreKeyword, symUnderscoreKeyword]
  exact containsSub_flatten g isHexLower hg.hex "___".data
    ⟨by decide, by decide, by decide⟩ st

theorem inferQuestionType_flatten (g : Nat → Str) (hg : IdsOk g) (st : SymText) :
    inferQuestionType (flatten g st) [] = symInferNoOpts st := by
  unfold inferQuestionType symInferNoOpts
  rw [tfKeyword_flatten g hg, matchingKeyword_flatten g hg,
    orderingKeyword_flatten g hg, underscoreKeyword_flatten g hg]
  simp

/-! ## Placeholder containment: an id occurs in the flattening exactly
where its placeholder token sits, on clean texts under a well-formed
supply -/

theorem flatten_starts_IMG (g : Nat → Str) (w : Str) (r : SymText)
    (h : startsWithStr ('I' :: 'M' :: 'G' :: w) (flatten g r) = true) :
    ∃ r3, r = .c 'I' :: .c 'M' :: .c 'G' :: r3 := by
  cases r with
  | nil => simp [flatten, startsWithStr] at h
  | cons t1 r1 =>
    cases t1 with
    | ph k =>
      rw [flatten, flattenTok, placeholder_cons] at h
      simp [startsWithStr] at h
    | c d1 =>
      rw [flatten, flattenTok] at h
      simp only [List.cons_append, List.nil_append, startsWithStr,
        Bool.and_eq_true, decide_eq_true_eq] at h
      obtain ⟨hd1, h⟩ := h
      subst hd1
      cases r1 with
      | nil => simp [flatten, startsWithStr] at h
      | cons t2 r2 =>
        cases t2 with
        | ph k =>
          rw [flatten, flattenTok, placeholder_cons] at h
          simp [startsWithStr] at h
        | c d2 =>
          rw [flatten, flattenTok] at h
          simp only [List.cons_append, List.nil_append, startsWithStr,
            Bool.and_eq_true, decide_eq_true_eq] at h
          obtain ⟨hd2, h⟩ := h
          subst hd2
          cases r2 with
          | nil => simp [flatten, startsWithStr] at h
          | cons t3 r3 =>
            cases t3 with
            | ph k =>
              rw [flatten, flattenTok, placeholder_cons] at h
              simp [startsWithStr] at h
            | c d3 =>
              rw [flatten, flattenTok] at h
              simp only [List.cons_append, List.nil_append, startsWithStr,
                Bool.and_eq_true, decide_eq_true_eq] at h
              obtain ⟨hd3, h⟩ := h
              subst hd3
              exact ⟨r3, rfl⟩

theorem hex_id_prefix_false (t : Str) :
    ∀ a b : Str,
      (∀ c ∈ a, isHexLower c = true) → (∀ c ∈ b, isHexLower c = true) →
      a ≠ b →
      startsWithStr (a ++ "]".data) (b ++ ']' :: t) = false := by
  intro a
  induction a with
  | nil =>
    intro b ha hb hne
    cases b with
    | nil => exact absurd rfl hne
    | cons d b2 =>
      have hd := hb d (List.mem_cons_self d b2)
      have hne2 : ¬ ((']' : Char) = d) := by
        intro he
        rw [← he] at hd
        exact absurd hd (by decide)
      simp only [List.nil_append, List.cons_append, startsWithStr]
      simp [hne2]
  | cons c a2 ih =>
    intro b ha hb hne
    have hc := ha c (List.mem_cons_self c a2)
    cases b with
    | nil =>
      have hne2 : ¬ (c = ']') := by
        intro he
        rw [he] at hc
        exact absurd hc (by decide)
      simp only [List.nil_append, List.cons_append, startsWithStr]
      simp [hne2]
    | cons d b2 =>
      simp only [List.cons_append, startsWithStr]
      by_cases hcd : c = d
      · subst hcd
        have hne2 : a2 ≠ b2 := by
          intro h2
          exact hne (by rw [h2])
        have hih := ih b2 (fun x hx => ha x (List.mem_cons_of_mem _ hx))
          (fun x hx => hb x (List.mem_cons_of_mem _ hx)) hne2
        simp [hih]
      · simp [hcd]

theorem placeholder_tail_no_lb (id : Str) (hid : ∀ c ∈ id, isHexLower c = true) :
    ∀ c ∈ ("IMG:".data ++ id ++ "]".data), ¬ c = '[' := by
  intro c hc hce
  subst hce
  simp only [List.mem_append] at hc
  rcases hc with (hc | hc) | hc
  · exact absurd hc (by decide)
  · exact absurd (hid _ hc) (by decide)
  · exact absurd hc (by decide)

theorem no_lb_starts (p1 : Str) (s t : Str) (hs : ∀ c ∈ s, ¬ c = '[') :
    ∀ j, j < s.length → startsWithStr ('[' :: p1) (s.drop j ++ t) = false := by
  intro j hj
  cases hd : s.drop j with
  | nil =>
    have := congrArg List.length hd
    simp only [List.length_drop, List.length_nil] at this
    omega
  | cons x xs =>
    have hx : x ∈ s := List.drop_subset _ _ (hd ▸ List.mem_cons_self x xs)
    have hne : ¬ ('[' = x) := fun he => hs x hx he.symm
    simp only [List.cons_append, startsWithStr]
    simp [hne]

theorem startsWithStr_append_cancel (u p l : Str) :
    startsWithStr (u ++ p) (u ++ l) = startsWithStr p l := by
  induction u with
  | nil => rfl
  | cons c u2 ih => simp [startsWithStr, ih]

theorem containsSub_placeholder (g : Nat → Str) (hg : IdsOk g) (k : Nat) :
    ∀ st : SymText, hasImgRun st = false →
      containsSub (placeholder (g k)) (flatten g st) = st.contains (.ph k) := by
  intro st
  induction st with
  | nil =>
    intro hclean
    rw [show flatten g [] = [] from rfl, placeholder_cons]
    rfl
  | cons tk r ih =>
    intro hclean
    have hcr : hasImgRun r = false := by
      rw [hasImgRun] at hclean
      cases hx : hasImgRun r
      · rfl
      · rw [hx] at hclean; simp at hclean
    cases tk with
    | c d =>
      have hfl : flatten g (.c d :: r) = d :: flatten g r := by simp [flatten, flattenTok]
      have hstep : containsSub (placeholder (g k)) (d :: flatten g r) =
          (startsWithStr (placeholder (g k)) (d :: flatten g r) ||
            containsSub (placeholder (g k)) (flatten g r)) := rfl
      have hsw : startsWithStr (placeholder (g k)) (d :: flatten g r) = false := by
        cases hx : startsWithStr (placeholder (g k)) (d :: flatten g r)
        · rfl
        · exfalso
          rw [placeholder_cons] at hx
          simp only [startsWithStr, Bool.and_eq_true, decide_eq_true_eq] at hx
          obtain ⟨hd, hx2⟩ := hx
          subst hd
          obtain ⟨r3, hr3⟩ := flatten_starts_IMG g (':' :: (g k ++ "]".data)) r hx2
          rw [hr3] at hclean
          simp [hasImgRun, startsImgRun, isTok] at hclean
      rw [hfl, hstep, ih hcr, hsw, Bool.false_or]
      simp [List.contains_cons]
    | ph j =>
      have hfl : flatten g (.ph j :: r) =
          '[' :: (("IMG:".data ++ g j ++ "]".data) ++ flatten g r) := by
        show placeholder (g j) ++ flatten g r = _
        rw [placeholder_cons]
        simp
      have hskip : containsSub (placeholder (g k))
          (("IMG:".data ++ g j ++ "]".data) ++ flatten g r) =
          containsSub (placeholder (g k)) (flatten g r) := by
        rw [placeholder_cons]
        exact containsSub_append_skip _ (flatten g r) _
          (no_lb_starts _ _ _ (placeholder_tail_no_lb (g j) (hg.hex j)))
      have hstep : containsSub (placeholder (g k))
          ('[' :: (("IMG:".data ++ g j ++ "]".data) ++ flatten g r)) =
          (startsWithStr (placeholder (g k))
            ('[' :: (("IMG:".data ++ g j ++ "]".data) ++ flatten g r)) ||
            containsSub (placeholder (g k))
              (("IMG:".data ++ g j ++ "]".data) ++ flatten g r)) := rfl
      have hswEq : startsWithStr (placeholder (g k))
          ('[' :: (("IMG:".data ++ g j ++ "]".data) ++ flatten g r)) =
          startsWithStr (g k ++ "]".data) (g j ++ ']' :: flatten g r) := by
        have e1 : placeholder (g k) = "[IMG:".data ++ (g k ++ "]".data) := by
          simp [placeholder]
        have e2 : ('[' :: (("IMG:".data ++ g j ++ "]".data) ++ flatten g r) : Str) =
            "[IMG:".data ++ (g j ++ ']' :: flatten g r) := by
          simp
        rw [e1, e2, startsWithStr_append_cancel]
      rw [hfl, hstep, hskip, ih hcr, hswEq]
      by_cases hkj : k = j
      · subst hkj
        have htrue : startsWithStr (g k ++ "]".data) (g k ++ ']' :: flatten g r) = true := by
          rw [startsWithStr_iff]
          exact ⟨flatten g r, by simp⟩
        rw [htrue]
        simp [List.contains_cons]
      · have hne : g k ≠ g j := fun he => hkj (hg.inj he)
        rw [hex_id_prefix_false (flatten g r) (g k) (g j) (hg.hex k) (hg.hex j) hne]
        have hbf : (STok.ph k == STok.ph j) = false := by
          simp only [beq_eq_false_iff_ne, ne_eq]
          intro he
          injection he with he2
          exact hkj he2
        have hcc : (STok.ph j :: r).contains (STok.ph k) =
            ((STok.ph k == STok.ph j) || r.contains (STok.ph k)) := rfl
        rw [hcc, hbf, Bool.false_or]

/-! ## Component commutation lemmas for the simulation -/

theorem map_filter_comm {α β : Type} (f : α → β) (p : β → Bool) (l : List α) :
    (l.map f).filter p = (l.filter (fun a => p (f a))).map f := by
  induction l with
  | nil => rfl
  | cons a r ih =>
    simp only [List.map_cons, List.filter_cons]
    cases hp : p (f a)
    · simp [ih]
    · simp [ih]

theorem map_any_comm {α β : Type} (f : α → β) (p : β → Bool) (l : List α) :
    (l.map f).any p = l.any (fun a => p (f a)) := by
  induction l with
  | nil => rfl
  | cons a r ih => simp [List.any_cons, ih]

theorem any_congr_mem {α : Type} (l : List α) (p q : α → Bool)
    (h : ∀ a ∈ l, p a = q a) : l.any p = l.any q := by
  induction l with
  | nil => rfl
  | cons a r ih =>
    simp only [List.any_cons, h a (List.mem_cons_self a r)]
    rw [ih (fun x hx => h x (List.mem_cons_of_mem _ hx))]

theorem isEmpty_map {α β : Type} (f : α → β) (l : List α) :
    (l.map f).isEmpty = l.isEmpty := by
  cases l <;> rfl

theorem processElement_flatten (g : Nat → Str) (e : Elem) (ctr : Nat) :
    processElement g e ctr =
      (flatten g (symProcessElement e ctr).1,
       (symProcessElement e ctr).2.1.map g,
       (symProcessElement e ctr).2.2) := by
  unfold processElement symProcessElement
  rw [processParts_flatten]
  simp [jsTrim_flatten]

theorem clean_symProcessElement (e : Elem) (he : cleanElem e = true) (ctr : Nat) :
    hasImgRun (symProcessElement e ctr).1 = false := by
  unfold symProcessElement
  apply clean_symTrim
  rw [hasImgRun_symProcessParts]
  unfold cleanElem at he
  cases hx : hasImgRun (partsView e.parts)
  · rfl
  · rw [hx] at he
    simp at he

theorem appendStem_flatten (g : Nat → Str) (a b : SymText) :
    appendStem (flatten g a) (flatten g b) = flatten g (symAppendStem a b) := by
  unfold appendStem symAppendStem
  rw [isEmpty_flatten, getLast?_flatten, head?_flatten, flatten_append, flatten_append]
  by_cases hns : (!a.isEmpty &&
      !(match symLast a with
        | some c => isWs c
        | none => false) &&
      !(match symHead b with
        | some c => c = '.' || c = ',' || c = ';' || c = ':' || c = '!' || c = '?'
        | none => false)) = true
  · simp [hns, flatten, flattenTok]
  · simp only [Bool.not_eq_true] at hns
    simp [hns, flatten]

theorem blockTokL_of_ws (c : Char) (h : isWs c = true) : blockTokL (.c c) = true := by
  have h1 : ¬ c = '[' := fun he => by rw [he] at h; exact absurd h (by decide)
  have h2 : ¬ c = 'I' := fun he => by rw [he] at h; exact absurd h (by decide)
  have h3 : ¬ c = 'M' := fun he => by rw [he] at h; exact absurd h (by decide)
  simp [blockTokL, isTok, h1, h2, h3]

theorem clean_symAppendStem (a b : SymText)
    (ha : hasImgRun a = false) (hb : hasImgRun b = false) :
    hasImgRun (symAppendStem a b) = false := by
  unfold symAppendStem
  by_cases hns : (!a.isEmpty &&
      !(match symLast a with
        | some c => isWs c
        | none => false) &&
      !(match symHead b with
        | some c => c = '.' || c = ',' || c = ';' || c = ':' || c = '!' || c = '?'
        | none => false)) = true
  · simp only [hns, if_true]
    have h1 : hasImgRun (a ++ [STok.c ' ']) = false := by
      apply clean_append a [STok.c ' '] ha (by decide)
      exact Or.inr (by simp [blockTokR, isTok])
    have h2 := clean_append (a ++ [STok.c ' ']) b h1 hb (by
      left
      rw [List.getLast?_concat]
      simp [blockTokL, isTok])
    simpa using h2
  · simp only [Bool.not_eq_true] at hns
    simp only [hns, Bool.false_eq_true, if_false, List.append_nil]
    rcases Bool.and_eq_false_iff.mp hns with h1 | h1
    · rcases Bool.and_eq_false_iff.mp h1 with h2 | h2
      · have h2b : a.isEmpty = true := by
          cases hx : a.isEmpty
          · rw [hx] at h2; simp at h2
          · rfl
        have hae : a = [] := List.isEmpty_iff.mp h2b
        subst hae
        simpa using hb
      · have h2b : (match symLast a with
            | some c => isWs c
            | none => false) = true := by
          cases hx : (match symLast a with
              | some c => isWs c
              | none => false)
          · rw [hx] at h2; simp at h2
          · rfl
        apply clean_append a b ha hb
        left
        cases hgl : a.getLast? with
        | none => simp [symLast, hgl] at h2b
        | some t =>
          cases t with
          | c d =>
            simp only [symLast, hgl] at h2b
            exact blockTokL_of_ws d h2b
          | ph k =>
            simp only [symLast, hgl] at h2b
            exact absurd h2b (by decide)
    · have h1b : (match symHead b with
          | some c => c = '.' || c = ',' || c = ';' || c = ':' || c = '!' || c = '?'
          | none => false) = true := by
        cases hx : (match symHead b with
            | some c => c = '.' || c = ',' || c = ';' || c = ':' || c = '!' || c = '?'
            | none => false)
        · rw [hx] at h1; simp at h1
        · rfl
      apply clean_append a b ha hb
      right
      cases b with
      | nil => simp
      | cons t r =>
        cases t with
        | c d =>
          simp only [symHead] at h1b
          simp only [List.head?_cons]
          simp only [Bool.or_eq_true, decide_eq_true_eq] at h1b
          rcases h1b with ((((h|h)|h)|h)|h)|h <;> subst h <;> decide
        | ph k =>
          simp only [symHead] at h1b
          exact absurd h1b (by decide)

theorem symQuestionStartMatch_sfx (st : SymText) (n : Nat) (rest : SymText)
    (h : symQuestionStartMatch st = some (n, rest)) : rest <:+ st := by
  unfold symQuestionStartMatch at h
  by_cases hds : ((st.dropWhile (tokPred isWs)).takeWhile (tokPred isDigit)).isEmpty = true
  · simp [hds] at h
  · simp only [Bool.not_eq_true] at hds
    simp only [hds, Bool.false_eq_true, if_false] at h
    cases hl2 : ((st.dropWhile (tokPred isWs)).dropWhile (tokPred isDigit)).dropWhile
        (tokPred isWs) with
    | nil => rw [hl2] at h; simp at h
    | cons t l3 =>
      rw [hl2] at h
      cases t with
      | ph k => simp at h
      | c c0 =>
        by_cases hsep : (c0 = '.' || c0 = ')' || c0 = '-') = true
        · simp only [hsep, if_true] at h
          by_cases hws : ((l3.takeWhile (tokPred isWs)).isEmpty) = true
          · simp [hws] at h
          · simp only [Bool.not_eq_true] at hws
            simp only [hws, Bool.false_eq_true, if_false, Option.some.injEq,
              Prod.mk.injEq] at h
            obtain ⟨h1, h2⟩ := h
            have s1 : rest <:+ l3 := by
              rw [← h2]
              exact List.dropWhile_suffix _
            have s2 : (STok.c c0 :: l3 : SymText) <:+ st := by
              rw [← hl2]
              exact (List.dropWhile_suffix _).trans
                ((List.dropWhile_suffix _).trans (List.dropWhile_suffix _))
            exact s1.trans ((List.suffix_cons _ _).trans s2)
        · simp only [Bool.not_eq_true] at hsep
          simp [hsep] at h

theorem symOptionMatch_sfx (st : SymText) (c : Char) (rest : SymText)
    (h : symOptionMatch st = some (c, rest)) : rest <:+ st := by
  unfold symOptionMatch at h
  cases h1 : st.dropWhile (tokPred isWs) with
  | nil => rw [h1] at h; simp at h
  | cons t l2 =>
    rw [h1] at h
    have hcl2 : (t :: l2 : SymText) <:+ st := by
      rw [← h1]
      exact List.dropWhile_suffix _
    cases t with
    | ph k => simp at h
    | c c0 =>
      by_cases hl : isAsciiLetter c0 = true
      · simp only [hl, if_true] at h
        cases h2 : l2.dropWhile (tokPred isWs) with
        | nil => rw [h2] at h; simp at h
        | cons u l3 =>
          rw [h2] at h
          have hcl3 : (u :: l3 : SymText) <:+ l2 := by
            rw [← h2]
            exact List.dropWhile_suffix _
          cases u with
          | ph m => simp at h
          | c d0 =>
            by_cases hsep : (d0 = '.' || d0 = ')') = true
            · simp only [hsep, if_true] at h
              by_cases hws : ((l3.takeWhile (tokPred isWs)).isEmpty) = true
              · simp [hws] at h
              · simp only [Bool.not_eq_true] at hws
                simp only [hws, Bool.false_eq_true, if_false, Option.some.injEq,
                  Prod.mk.injEq] at h
                obtain ⟨hc1, hc2⟩ := h
                have s1 : rest <:+ l3 := by
                  rw [← hc2]
                  exact List.dropWhile_suffix _
                exact s1.trans ((List.suffix_cons _ _).trans (hcl3.trans
                  ((List.suffix_cons _ _).trans hcl2)))
            · simp only [Bool.not_eq_true] at hsep
              simp [hsep] at h
      · simp only [Bool.not_eq_true] at hl
        simp only [hl, Bool.false_eq_true, if_false] at h
        by_cases hpar : c0 = '('
        · rw [if_pos hpar] at h
          cases h2 : l2.dropWhile (tokPred isWs) with
          | nil => rw [h2] at h; simp at h
          | cons u l3 =>
            rw [h2] at h
            have hcl3 : (u :: l3 : SymText) <:+ l2 := by
              rw [← h2]
              exact List.dropWhile_suffix _
            cases u with
            | ph m => simp at h
            | c d0 =>
              by_cases hld : isAsciiLetter d0 = true
              · simp only [hld, if_true] at h
                cases h3 : l3.dropWhile (tokPred isWs) with
                | nil => rw [h3] at h; simp at h
                | cons v l4 =>
                  rw [h3] at h
                  have hcl4 : (v :: l4 : SymText) <:+ l3 := by
                    rw [← h3]
                    exact List.dropWhile_suffix _
                  cases v with
                  | ph m => simp at h
                  | c e0 =>
                    by_cases hrp : e0 = ')'
                    · subst hrp
                      by_cases hws : ((l4.takeWhile (tokPred isWs)).isEmpty) = true
                      · simp [hws] at h
                      · simp only [Bool.not_eq_true] at hws
                        simp only [hws, Bool.false_eq_true, if_false, reduceIte,
                          Option.some.injEq, Prod.mk.injEq] at h
                        obtain ⟨hc1, hc2⟩ := h
                        have s1 : rest <:+ l4 := by
                          rw [← hc2]
                          exact List.dropWhile_suffix _
                        exact s1.trans ((List.suffix_cons _ _).trans (hcl4.trans
                          ((List.suffix_cons _ _).trans (hcl3.trans
                            ((List.suffix_cons _ _).trans hcl2)))))
                    · simp [hrp] at h
              · simp only [Bool.not_eq_true] at hld
                simp [hld] at h
        · rw [if_neg hpar] at h
          simp at h

theorem clean_of_sfx {a b : SymText} (h : a <:+ b) (hb : hasImgRun b = false) :
    hasImgRun a = false := by
  obtain ⟨pre, rfl⟩ := h
  exact clean_suffix hb

theorem finalizeDraft_flatten (g : Nat → Str) (hg : IdsOk g) (q : SymQuestion)
    (acc : List SymMeta) (hq : cleanQ q) :
    finalizeDraft (realizeQ g q) (acc.map (realizeMeta g)) =
      realizeQ g (symFinalizeDraft q acc) := by
  obtain ⟨hqt, hqo⟩ := hq
  have hpred : ∀ m ∈ acc,
      (containsSub (placeholder (realizeMeta g m).id) (flatten g q.text) ||
        (q.options.map (realizeOpt g)).any
          (fun o => containsSub (placeholder (realizeMeta g m).id) o.text)) =
      (q.text.contains (.ph m.k) ||
        q.options.any (fun o => o.text.contains (.ph m.k))) := by
    intro m hm
    have h1 : containsSub (placeholder (g m.k)) (flatten g q.text) =
        q.text.contains (.ph m.k) :=
      containsSub_placeholder g hg m.k q.text hqt
    have h2 : (q.options.map (realizeOpt g)).any
        (fun o => containsSub (placeholder (g m.k)) o.text) =
        q.options.any (fun o => o.text.contains (.ph m.k)) := by
      rw [map_any_comm]
      apply any_congr_mem
      intro o ho
      exact containsSub_placeholder g hg m.k o.text (hqo o ho)
    show (containsSub (placeholder (g m.k)) (flatten g q.text) || _) = _
    rw [h1, ← h2]
    rfl
  have hfilter : (acc.map (realizeMeta g)).filter (fun im =>
      containsSub (placeholder im.id) (flatten g q.text) ||
        (q.options.map (realizeOpt g)).any
          (fun o => containsSub (placeholder im.id) o.text)) =
      (acc.filter (fun m => q.text.contains (.ph m.k) ||
        q.options.any (fun o => o.text.contains (.ph m.k)))).map (realizeMeta g) := by
    rw [map_filter_comm]
    congr 1
    exact List.filter_congr hpred
  simp only [finalizeDraft, symFinalizeDraft, realizeQ, hfilter, isEmpty_map]

theorem pqFinish_flatten (g : Nat → Str) (hg : IdsOk g) (s : SymPQState)
    (hs : cleanCur s.cur) :
    pqFinish (realizeState g s) = realizeState g (symPqFinish s) := by
  unfold pqFinish symPqFinish
  cases hc : s.cur with
  | none => simp [realizeState, hc]
  | some q =>
    rw [hc] at hs
    simp only [realizeState, hc, Option.map_some']
    rw [finalizeDraft_flatten g hg q s.accImgs hs]
    simp [List.map_append]

theorem filter_contains_flatten (g : Nat → Str) (hg : IdsOk g)
    (acc : List SymMeta) (t : SymText) (ht : hasImgRun t = false) :
    (acc.map (realizeMeta g)).filter
        (fun im => containsSub (placeholder im.id) (flatten g t)) =
      (acc.filter (fun m => t.contains (.ph m.k))).map (realizeMeta g) := by
  rw [map_filter_comm]
  congr 1
  apply List.filter_congr
  intro m hm
  exact containsSub_placeholder g hg m.k t ht

theorem pqStep_flatten (g : Nat → Str) (hg : IdsOk g) (i : Nat) (e : Elem)
    (he : cleanElem e = true) (ss : SymPQState) (hs : cleanCur ss.cur) :
    pqStep g i e (realizeState g ss) = (symPqStep i e ss).map (realizeState g) := by
  have hclean : hasImgRun (symProcessElement e ss.ctr).1 = false :=
    clean_symProcessElement e he ss.ctr
  unfold pqStep symPqStep
  simp only [realizeState]
  simp only [processElement_flatten]
  simp only [isEmpty_flatten, isEmpty_map, answerKeyQP_flatten]
  set tS := (symProcessElement e ss.ctr).1
  set ksS := (symProcessElement e ss.ctr).2.1
  set ctrS := (symProcessElement e ss.ctr).2.2
  by_cases h1 : (tS.isEmpty && ksS.isEmpty) = true
  · simp [h1, realizeState]
  · simp only [Bool.not_eq_true] at h1
    simp only [h1, Bool.false_eq_true, if_false]
    by_cases h2 : symAnswerKeyQP tS = true
    · simp [h2]
    · simp only [Bool.not_eq_true] at h2
      simp only [h2, Bool.false_eq_true, if_false, Option.map_some']
      have hqn : (match Option.map (realizeQ g) ss.cur with
          | some q => q.number
          | none => 0) = (match ss.cur with
          | some q => q.number
          | none => 0) := by
        cases ss.cur <;> rfl
      rw [hqn]
      set qn := (match ss.cur with
        | some q => q.number
        | none => 0) with hqndef
      have hmetas : (ksS.map g).map
          (fun id => (⟨id, generateImageFilename qn (imageContext i id) id⟩ : ImageMeta)) =
          (ksS.map (fun k => (⟨k, qn, i⟩ : SymMeta))).map (realizeMeta g) := by
        rw [List.map_map, List.map_map]
        rfl
      rw [hmetas]
      simp only [← List.map_append]
      set mS := ksS.map (fun k => (⟨k, qn, i⟩ : SymMeta)) with hmS
      set ss1 : SymPQState := { ss with accImgs := ss.accImgs ++ mS, allImages := ss.allImages ++ mS, ctr := ctrS } with hss1
      have hs1 : cleanCur ss1.cur := hs
      have hfold : ({
            questions := ss.questions.map (realizeQ g),
            cur := Option.map (realizeQ g) ss.cur,
            accImgs := (ss.accImgs ++ mS).map (realizeMeta g),
            allImages := (ss.allImages ++ mS).map (realizeMeta g),
            ctr := ctrS,
            typeMap := ss.typeMap } : PQState) = realizeState g ss1 := rfl
      rw [hfold]
      rw [questionStartMatch_flatten g]
      cases hqs : symQuestionStartMatch tS with
      | some pr =>
        obtain ⟨n, restS⟩ := pr
        simp only [Option.map_some']
        rw [jsTrim_flatten, inferQuestionType_flatten g hg]
        rw [pqFinish_flatten g hg ss1 hs1]
        rw [filter_contains_flatten g hg (ss.accImgs ++ mS) tS hclean]
        simp only [← hss1]
        simp only [realizeState, isEmpty_map, realizeQ, List.map_nil, Option.map_some']
      | none =>
        simp only [Option.map_none']
        cases hcur : ss.cur with
        | none =>
          simp only [Option.map_none']
          simp only [realizeState]
          rw [hcur]
        | some qS =>
          simp only [Option.map_some']
          rw [optionMatch_flatten g]
          cases hom : symOptionMatch tS with
          | some opr =>
            obtain ⟨letter, optRawS⟩ := opr
            simp only [Option.map_some']
            rw [jsTrim_flatten]
            rw [filter_contains_flatten g hg (ss.accImgs ++ mS) (symTrim optRawS)
              (clean_symTrim (clean_of_sfx (symOptionMatch_sfx tS letter optRawS hom)
                hclean))]
            simp only [realizeState, realizeQ, realizeOpt, List.map_append,
              List.map_cons, List.map_nil, List.map_map, isEmpty_map,
              Option.map_some', Function.comp_def]
          | none =>
            simp only [Option.map_none']
            simp only [realizeQ]
            rw [appendStem_flatten g]
            cases hte : (!List.isEmpty tS)
            · simp only [hte, Bool.false_eq_true, if_false, realizeState, realizeQ,
                Option.map_some', List.map_append]
            · simp only [hte, if_true, realizeState, realizeQ, Option.map_some',
                List.map_append]

theorem symPqStep_clean (i : Nat) (e : Elem) (ss : SymPQState)
    (he : cleanElem e = true) (hs : cleanCur ss.cur) :
    ∀ ss2, symPqStep i e ss = some ss2 → cleanCur ss2.cur := by
  have hclean : hasImgRun (symProcessElement e ss.ctr).1 = false :=
    clean_symProcessElement e he ss.ctr
  intro ss2 h
  unfold symPqStep at h
  set tS := (symProcessElement e ss.ctr).1 with htS
  set ksS := (symProcessElement e ss.ctr).2.1 with hksS
  by_cases h1 : (tS.isEmpty && ksS.isEmpty) = true
  · simp only [h1, if_true, Option.some.injEq] at h
    subst h
    exact hs
  · simp only [Bool.not_eq_true] at h1
    simp only [h1, Bool.false_eq_true, if_false] at h
    by_cases h2 : symAnswerKeyQP tS = true
    · simp [h2] at h
    · simp only [Bool.not_eq_true] at h2
      simp only [h2, Bool.false_eq_true, if_false, Option.some.injEq] at h
      cases hqs : symQuestionStartMatch tS with
      | some pr =>
        obtain ⟨n, restS⟩ := pr
        rw [hqs] at h
        simp only [] at h
        subst h
        refine ⟨?_, ?_⟩
        · exact clean_symTrim (clean_of_sfx
            (symQuestionStartMatch_sfx tS n restS hqs) hclean)
        · intro o ho
          simp at ho
      | none =>
        rw [hqs] at h
        simp only [] at h
        cases hcur : ss.cur with
        | none =>
          rw [hcur] at h
          simp only [] at h
          subst h
          trivial
        | some qS =>
          rw [hcur] at h
          simp only [] at h
          have hq : cleanQ qS := by
            rw [hcur] at hs
            exact hs
          cases hom : symOptionMatch tS with
          | some opr =>
            obtain ⟨letter, optRawS⟩ := opr
            rw [hom] at h
            simp only [] at h
            subst h
            refine ⟨hq.1, ?_⟩
            intro o ho
            rcases List.mem_append.mp ho with ho2 | ho2
            · exact hq.2 o ho2
            · have hoe := List.mem_singleton.mp ho2
              rw [hoe]
              exact clean_symTrim (clean_of_sfx
                (symOptionMatch_sfx tS letter optRawS hom) hclean)
          | none =>
            rw [hom] at h
            simp only [] at h
            subst h
            refine ⟨?_, ?_⟩
            · cases hte : (!List.isEmpty tS)
              · simp only [hte, Bool.false_eq_true, if_false]
                exact hq.1
              · simp only [hte, if_true]
                exact clean_symAppendStem qS.text tS hq.1 hclean
            · intro o ho
              cases hte : (!List.isEmpty tS)
              · simp only [hte, Bool.false_eq_true, if_false] at ho
                exact hq.2 o ho
              · simp only [hte, if_true] at ho
                exact hq.2 o ho

theorem pqLoop_flatten (g : Nat → Str) (hg : IdsOk g) :
    ∀ (elems : List Elem) (i : Nat) (ss : SymPQState),
      (∀ e ∈ elems, cleanElem e = true) → cleanCur ss.cur →
      pqLoop g i elems (realizeState g ss) = realizeState g (symPqLoop i elems ss) := by
  intro elems
  induction elems with
  | nil =>
    intro i ss hcl hs
    unfold pqLoop symPqLoop
    exact pqFinish_flatten g hg ss hs
  | cons e rest ih =>
    intro i ss hcl hs
    unfold pqLoop symPqLoop
    rw [pqStep_flatten g hg i e (hcl e (List.mem_cons_self e rest)) ss hs]
    cases hstep : symPqStep i e ss with
    | none =>
      simp only [Option.map_none']
      exact pqFinish_flatten g hg ss hs
    | some ss2 =>
      simp only [Option.map_some']
      exact ih (i + 1) ss2 (fun x hx => hcl x (List.mem_cons_of_mem _ hx))
        (symPqStep_clean i e ss (hcl e (List.mem_cons_self e rest)) hs ss2 hstep)

theorem parseQuestions_flatten (g : Nat → Str) (hg : IdsOk g) (elems : List Elem)
    (hcl : ∀ e ∈ elems, cleanElem e = true) :
    parseQuestionsModel g elems =
      ⟨(symParseQuestions elems).questions.map (realizeQ g),
       (symParseQuestions elems).allImages.map (realizeMeta g),
       (symParseQuestions elems).typeMap⟩ := by
  unfold parseQuestionsModel symParseQuestions
  have h0 : (⟨[], none, [], [], 0, fun _ => none⟩ : PQState) =
      realizeState g ⟨[], none, [], [], 0, fun _ => none⟩ := rfl
  rw [h0, pqLoop_flatten g hg elems 0 ⟨[], none, [], [], 0, fun _ => none⟩ hcl trivial]
  rfl

/-- C9: re-running the structural parser on an unchanged block stream,
with a second independent supply of freshly minted image ids, yields
identical question numbers, question types, option letters, hasImages
flags and the identical shared type map; and both runs realize one
common symbolic question list, so stems, option texts, and image records
can differ only by the substitution of the minted ids into placeholder
tokens and generated filenames — no other IR field may differ.  The
hypotheses state that both id supplies are well formed (nonempty
lowercase-hex ids, distinct across mints, as produced by getUuid) and
that no document text run spells the four literal characters of a
placeholder opening. -/
theorem c9_reparse_stable_modulo_ids (g1 g2 : Nat → Str)
    (h1 : IdsOk g1) (h2 : IdsOk g2) (elems : List Elem)
    (hcl : ∀ e ∈ elems, cleanElem e = true) :
    ((parseQuestionsModel g1 elems).questions.map (·.number) =
        (parseQuestionsModel g2 elems).questions.map (·.number) ∧
      (parseQuestionsModel g1 elems).questions.map (·.qtype) =
        (parseQuestionsModel g2 elems).questions.map (·.qtype) ∧
      (parseQuestionsModel g1 elems).questions.map (fun q => q.options.map (·.letter)) =
        (parseQuestionsModel g2 elems).questions.map (fun q => q.options.map (·.letter)) ∧
      (parseQuestionsModel g1 elems).questions.map (·.hasImages) =
        (parseQuestionsModel g2 elems).questions.map (·.hasImages) ∧
      (parseQuestionsModel g1 elems).typeMap = (parseQuestionsModel g2 elems).typeMap) ∧
    ∃ shapes : List SymQuestion,
      (parseQuestionsModel g1 elems).questions = shapes.map (realizeQ g1) ∧
      (parseQuestionsModel g2 elems).questions = shapes.map (realizeQ g2) := by
  rw [parseQuestions_flatten g1 h1 elems hcl, parseQuestions_flatten g2 h2 elems hcl]
  refine ⟨⟨?_, ?_, ?_, ?_, rfl⟩,
    ⟨(symParseQuestions elems).questions, rfl, rfl⟩⟩
  all_goals simp [List.map_map, realizeQ, Function.comp_def, realizeOpt]

theorem c9_reparse_stable_modulo_ids_witness :
    (((parseQuestionsModel c9SupplyA c9Blocks).questions.map (·.number) =
        (parseQuestionsModel c9SupplyB c9Blocks).questions.map (·.number) ∧
      (parseQuestionsModel c9SupplyA c9Blocks).questions.map (·.qtype) =
        (parseQuestionsModel c9SupplyB c9Blocks).questions.map (·.qtype) ∧
      (parseQuestionsModel c9SupplyA c9Blocks).questions.map
          (fun q => q.options.map (·.letter)) =
        (parseQuestionsModel c9SupplyB c9Blocks).questions.map
          (fun q => q.options.map (·.letter)) ∧
      (parseQuestionsModel c9SupplyA c9Blocks).questions.map (·.hasImages) =
        (parseQuestionsModel c9SupplyB c9Blocks).questions.map (·.hasImages) ∧
      (parseQuestionsModel c9SupplyA c9Blocks).typeMap =
        (parseQuestionsModel c9SupplyB c9Blocks).typeMap) ∧
    ∃ shapes : List SymQuestion,
      (parseQuestionsModel c9SupplyA c9Blocks).questions =
        shapes.map (realizeQ c9SupplyA) ∧
      (parseQuestionsModel c9SupplyB c9Blocks).questions =
        shapes.map (realizeQ c9SupplyB)) :=
  c9_reparse_stable_modulo_ids c9SupplyA c9SupplyB
    ⟨fun k => by simp [c9SupplyA],
     fun k c hc => by
       have hce := List.eq_of_mem_replicate hc
       rw [hce]
       decide,
     fun j k hjk => by
       have hl := congrArg List.length hjk
       simp [c9SupplyA] at hl
       omega⟩
    ⟨fun k => by simp [c9SupplyB],
     fun k c hc => by
       have hce := List.eq_of_mem_replicate hc
       rw [hce]
       decide,
     fun j k hjk => by
       have hl := congrArg List.length hjk
       simp [c9SupplyB] at hl
       omega⟩
    c9Blocks (by decide)

/-- Counterexample to the unconditional re-run claim: on a document that
spells a placeholder literally, two well-formed id supplies yield
different hasImages flags, a non-id IR field. -/
theorem c9_counterexample :
    IdsOk c9SupplyA ∧ IdsOk c9SupplyB ∧
    (parseQuestionsModel c9SupplyA c9CounterBlocks).questions.map (·.hasImages) ≠
      (parseQuestionsModel c9SupplyB c9CounterBlocks).questions.map (·.hasImages) :=
  ⟨⟨fun k => by simp [c9SupplyA],
    fun k c hc => by
      have hce := List.eq_of_mem_replicate hc
      rw [hce]
      decide,
    fun j k hjk => by
      have hl := congrArg List.length hjk
      simp [c9SupplyA] at hl
      omega⟩,
   ⟨fun k => by simp [c9SupplyB],
    fun k c hc => by
      have hce := List.eq_of_mem_replicate hc
      rw [hce]
      decide,
    fun j k hjk => by
      have hl := congrArg List.length hjk
      simp [c9SupplyB] at hl
      omega⟩,
   by decide⟩

end Doc2LMS
